import Mathlib

/-!
Verification development for the Dfsc-Installer addon installation and
reconciliation engine (src/main/installer.ts, src/main/ipc.ts).

The TypeScript source is shallowly embedded: asynchronous filesystem and
network effects are replaced by explicit environment records and state
passing, JavaScript number arithmetic is modelled exactly over the
rationals, and progress/log emission (pure observation) is dropped.
-/

namespace Dfsc

/-! ## String primitives

JavaScript string operations (`toLowerCase`, `startsWith`, `endsWith`,
`includes`, `split`, `join`, `trim`) are modelled on the character list
of the Lean string, so that every definition evaluates by kernel
reduction. -/

/-- JavaScript `toLowerCase` (over the ASCII range the sources use). -/
def lowerStr (s : String) : String :=
  String.mk (s.data.map Char.toLower)

/-- JavaScript `startsWith`. -/
def startsWithStr (s pre : String) : Bool :=
  pre.data.isPrefixOf s.data

/-- JavaScript `endsWith`. -/
def endsWithStr (s suf : String) : Bool :=
  suf.data.isSuffixOf s.data

/-- Substring occurrence over character lists. -/
def subAux (pat : List Char) : List Char → Bool
  | [] => pat.isEmpty
  | c :: rest => pat.isPrefixOf (c :: rest) || subAux pat rest

/-- JavaScript `includes`: substring containment. -/
def hasSubStr (s pat : String) : Bool :=
  subAux pat.data s.data

/-- JavaScript `split` on one separator character. -/
def splitOnChar (sep : Char) (s : String) : List String :=
  (s.data.foldr (fun c (acc : List (List Char)) =>
    if c = sep then [] :: acc
    else match acc with
      | h :: t => (c :: h) :: t
      | [] => [[c]]) [[]]).map String.mk

/-- JavaScript `Array.join`. -/
def joinWith (sep : String) : List String → String
  | [] => ""
  | [x] => x
  | x :: y :: xs => x ++ sep ++ joinWith sep (y :: xs)

/-- JavaScript `trim`. -/
def trimStr (s : String) : String :=
  String.mk (((s.data.dropWhile Char.isWhitespace).reverse.dropWhile Char.isWhitespace).reverse)

/-! ## Disk space guard (installer.ts, requiredBytesFromInstalledSize) -/

/-- Embeds `requiredBytesFromInstalledSize` (installer.ts lines 420-423):
`Math.ceil(installedBytes * 1.2 + 200 * 1024 * 1024)`.
The JavaScript numeric expression is modelled exactly over the rationals,
with the literal `1.2` as the rational 12/10. -/
def requiredBytesFromInstalledSize (installedBytes : Nat) : Int :=
  Int.ceil ((installedBytes : ℚ) * (12 / 10) + 200 * 1024 * 1024)

/-- Modelled from the spec words (section 4.5): required bytes =
`ceil(extractedBytes × 1.2) + 200 MiB`.  Used only to compare the spec
formula against the source formula. -/
def requiredBytesSpecFormula (extractedBytes : Nat) : Int :=
  Int.ceil ((extractedBytes : ℚ) * (12 / 10)) + 200 * 1024 * 1024

/-! ## Install pipeline (installer.ts, AddonInstallerService.installAddon)

The pipeline is modelled as a pure function from an environment (the
outcomes of the external effects: download, hashing, extraction,
resolution, disk query, atomic install) to a result together with the
ordered list of side-effecting stages that actually executed.  The raw
(`allowRawInstall`) and strict branches of `installAddon` perform the same
stage sequence (resolve, disk check, atomic install, best-effort work-dir
cleanup, return), differing only in which resolver runs; the resolver
outcome is a single environment field covering both.  The `catch` block of
`installAddon` (lines 1269-1279) re-emits a progress event and rethrows:
it performs no filesystem action, in particular no work-dir removal. -/

/-- The side-effecting stages of one install operation, in source order. -/
inductive Step where
  | mkWorkDirs
  | download
  | verifySha
  | extract
  | resolvePackages
  | diskCheck
  | atomicInstall
  | cleanupWorkDir
  deriving DecidableEq, Repr

/-- Terminal errors of the install pipeline (installer.ts throw sites). -/
inductive InstallError where
  | invalidUrl
  | downloadFailed
  | checksumMismatch (expected actual : String)
  | extractFailed
  | resolveFailed
  | insufficientSpace (required : Int) (free : Nat)
  | installFailed
  deriving DecidableEq, Repr

/-- Environment of one `installAddon` run: the outcome each external
effect would have if reached. -/
structure InstallEnv where
  urlValid : Bool
  downloadOk : Bool
  actualSha : String
  expectedSha : String
  extractOk : Bool
  resolveOk : Bool
  extractedBytes : Nat
  freeBytes : Nat
  installResult : Except Unit (List String)
  version : String

/-- Embeds `AddonInstallerService.installAddon` (installer.ts lines
1112-1280) as a step machine: returns the pipeline result and the list of
stages that executed, in order.  On any throw the `catch` block rethrows
without running the work-dir cleanup (the `rm(workDir, ...)` calls at
lines 1215 and 1262 sit on the success paths only). -/
def installAddon (env : InstallEnv) : Except InstallError (List String × String) × List Step :=
  let steps := [Step.mkWorkDirs]
  if !env.urlValid then (.error .invalidUrl, steps) else
  let steps := steps ++ [Step.download]
  if !env.downloadOk then (.error .downloadFailed, steps) else
  let steps := steps ++ [Step.verifySha]
  if lowerStr env.actualSha ≠ lowerStr env.expectedSha then
    (.error (.checksumMismatch env.expectedSha env.actualSha), steps)
  else
  let steps := steps ++ [Step.extract]
  if !env.extractOk then (.error .extractFailed, steps) else
  let steps := steps ++ [Step.resolvePackages]
  if !env.resolveOk then (.error .resolveFailed, steps) else
  let steps := steps ++ [Step.diskCheck]
  let required := requiredBytesFromInstalledSize env.extractedBytes
  if (env.freeBytes : Int) < required then
    (.error (.insufficientSpace required env.freeBytes), steps)
  else
  let steps := steps ++ [Step.atomicInstall]
  match env.installResult with
  | .error _ => (.error .installFailed, steps)
  | .ok installedPaths =>
      (.ok (installedPaths, env.version), steps ++ [Step.cleanupWorkDir])

/-! ## Streaming extractor path guard (installer.ts, assertUnderDir /
extractZipWithProgress)

Paths are modelled POSIX-style as lists of components from the filesystem
root.  `join(extractDir, rel)` followed by `resolve` is modelled by
segment normalisation: empty and `.` segments are dropped and `..` pops
the last component, exactly what Node path normalisation does to an
absolute path without symlinks. -/

/-- Node `path.join(base, rel)` + `resolve` on an absolute, already
normalised `base`: append the `/`-separated segments of `rel`, dropping
empty and `.` segments and letting `..` pop one component. -/
def normalizeSegs (acc : List String) : List String → List String
  | [] => acc
  | seg :: rest =>
      if seg = "" ∨ seg = "." then normalizeSegs acc rest
      else if seg = ".." then normalizeSegs acc.dropLast rest
      else normalizeSegs (acc ++ [seg]) rest

/-- Render a component list as the absolute path string Node would
produce. -/
def renderPath (comps : List String) : String :=
  "/" ++ joinWith "/" comps

/-- Embeds `assertUnderDir` (installer.ts lines 146-152): the guard
passes iff `resolve(candidate).toLowerCase().startsWith
(resolve(baseDir).toLowerCase())` — a raw string-prefix test on the
rendered paths, with no separator boundary. -/
def assertUnderDirCheck (baseDir candidate : List String) : Bool :=
  startsWithStr (lowerStr (renderPath candidate)) (lowerStr (renderPath baseDir))

/-- The semantic containment the spec asks for: `full` stays under
directory `base` iff `base` is a componentwise prefix of `full`. -/
def underDir (base full : List String) : Bool :=
  base.isPrefixOf full

/-- Embeds the per-entry logic of `extractZipWithProgress` (installer.ts
lines 248-264): for each zip entry name, resolve
`join(extractDir, entryName)`, run `assertUnderDir`, then create the
directory (for names ending in `/`) or write the file.  Returns the list
of file paths written, or the traversal error.  Streaming, progress and
the zip byte format are dropped; entry names are taken as given. -/
def extractEntries (extractDir : List String) : List String → Except String (List (List String))
  | [] => .ok []
  | rel :: rest =>
      if rel = "" then extractEntries extractDir rest
      else
        let dest := normalizeSegs extractDir (splitOnChar '/' rel)
        if !assertUnderDirCheck extractDir dest then
          .error ("Unsafe path traversal detected: " ++ renderPath dest)
        else if endsWithStr rel "/" then
          extractEntries extractDir rest
        else
          (extractEntries extractDir rest).map (dest :: ·)

/-- The scratch directory of the worked counterexample: an extraction dir
named `extracted` inside a work dir, as `installAddon` lays it out. -/
def scratchDir : List String := ["tmp", "work", "extracted"]

/-- The sibling path that the flawed prefix check lets through. -/
def escapedPath : List String := ["tmp", "work", "extracted2", "pwn.txt"]

/-! ## Persisted store and remote manifest (store.ts, types.ts)

The electron-store object map `installed: Record<string, InstalledAddonRecord>`
is modelled as an association list with unique keys.  Record fields follow
what ipc.ts actually reads and writes (addonId, installed, installedChannel,
installedVersion, installPath, installedAt, installedPaths); `installedChannel`
is `Option String` with `none` for a null or absent field. -/

/-- One persisted installed-addon record, with the fields ipc.ts reads
and writes. -/
structure StoreRec where
  addonId : String
  installed : Bool
  installedChannel : Option String
  installedVersion : String
  installPath : Option String
  installedAt : String
  installedPaths : List String
  deriving DecidableEq, Repr

/-- The persisted `installed` map, as an association list. -/
abbrev Store := List (String × StoreRec)

/-- Lookup in the persisted map. -/
def storeGet (s : Store) (id : String) : Option StoreRec :=
  (s.find? (fun p => p.1 = id)).map (·.2)

/-- Embeds `setInstalled` (store.ts): replace or append on a record,
delete on `null`. -/
def storeSet (s : Store) (id : String) (r : Option StoreRec) : Store :=
  match r with
  | none => s.filter (fun p => p.1 ≠ id)
  | some rec =>
      if s.any (fun p => p.1 = id) then
        s.map (fun p => if p.1 = id then (id, rec) else p)
      else s ++ [(id, rec)]

/-- Keys of the persisted map are unique (it is a JavaScript object). -/
def storeKeysNodup (s : Store) : Prop := (s.map (·.1)).Nodup

/-- One catalog channel; only the fields the embedded handlers consult. -/
structure MChannel where
  version : String
  deriving DecidableEq, Repr

/-- One catalog addon entry, with the fields ipc.ts consults.
`packageFolderNames` absent in the manifest is modelled as `[]`
(the source always reads it through `?? []` or `?.length`). -/
structure MAddon where
  id : String
  packageFolderNames : List String
  stable : Option MChannel
  beta : Option MChannel
  dev : Option MChannel
  deriving DecidableEq, Repr

/-- The three release channel keys. -/
inductive ChannelKey where
  | stable
  | beta
  | dev
  deriving DecidableEq, Repr

/-- The wire string of a channel key. -/
def ChannelKey.str : ChannelKey → String
  | .stable => "stable"
  | .beta => "beta"
  | .dev => "dev"

/-- `addon.channels[key]` lookup. -/
def MAddon.channelOf (a : MAddon) : ChannelKey → Option MChannel
  | .stable => a.stable
  | .beta => a.beta
  | .dev => a.dev

/-! ## ADDON_INSTALL handler (ipc.ts lines 323-364) -/

/-- The side-effecting stages of the install handler that follow the
channel-conflict guard. -/
inductive HStep where
  | fetchManifest
  | runInstaller
  | writeRecord
  deriving DecidableEq, Repr

/-- Environment of one ADDON_INSTALL invocation: settings, the manifest
the fetch would return, the abstract outcome of
`installer.installAddon` (which performs download, verify, extract,
resolve and atomic install), and the clock. -/
structure InstallHandlerEnv where
  installPathSetting : Option String
  communityPathSetting : Option String
  manifestOk : Bool
  addons : List MAddon
  installerResult : Except String (List String × String)
  now : String

/-- Embeds the ADDON_INSTALL handler (ipc.ts lines 323-364): install-path
check, channel-conflict guard, manifest fetch, addon and channel lookup,
installer run, and the `setInstalled` write.  Returns the handler result,
the final store, and the stages that executed after the guard. -/
def addonInstallHandler (env : InstallHandlerEnv) (store : Store) (addonId : String)
    (req : ChannelKey) : Except String Store × Store × List HStep :=
  match env.installPathSetting.or env.communityPathSetting with
  | none => (.error "Install path not set", store, [])
  | some installPath =>
      let conflict : Bool :=
        match storeGet store addonId with
        | some existing =>
            existing.installed &&
              match existing.installedChannel with
              | some c => c != "unknown" && c != req.str
              | none => false
        | none => false
      if conflict then
        (.error "Channel switch not allowed. Uninstall current channel first.", store, [])
      else
        let steps := [HStep.fetchManifest]
        if !env.manifestOk then (.error "manifest fetch failed", store, steps) else
        match env.addons.find? (fun a => a.id = addonId) with
        | none => (.error ("Addon not found in manifest: " ++ addonId), store, steps)
        | some addon =>
            match addon.channelOf req with
            | none => (.error ("Channel not available: " ++ req.str), store, steps)
            | some _channel =>
                let steps := steps ++ [HStep.runInstaller]
                match env.installerResult with
                | .error e => (.error e, store, steps)
                | .ok (installedPaths, installedVersion) =>
                    let newRec : StoreRec :=
                      { addonId := addonId
                        installed := true
                        installedChannel := some req.str
                        installedVersion := installedVersion
                        installPath := some installPath
                        installedAt := env.now
                        installedPaths := installedPaths }
                    let store2 := storeSet store addonId (some newRec)
                    (.ok store2, store2, steps ++ [HStep.writeRecord])

/-! ## Extracted tree model (for the package resolver)

The extraction directory is modelled as a tree of named files and
directories; a path is the list of component names from the extraction
root.  `pathExists`, `readdir` and `stat` are evaluated on the tree;
`readdir` on a missing or non-directory path models the thrown error that
every call site catches into an empty listing.  The filesystem is modelled
case-sensitively (POSIX); the `isWin` flag of the source functions is kept
as a parameter and the claims are settled at `isWin = false`. -/

/-- One entry of the extracted tree. -/
inductive FsEntry where
  | file (name : String)
  | dir (name : String) (children : List FsEntry)

/-- The name of an entry. -/
def FsEntry.name : FsEntry → String
  | .file n => n
  | .dir n _ => n

/-- What a path resolves to: a directory (with its children) or a file. -/
inductive FsNode where
  | dirNode (children : List FsEntry)
  | fileNode

/-- Resolve a path against a directory listing. -/
def resolvePath : List String → List FsEntry → Option FsNode
  | [], root => some (.dirNode root)
  | n :: rest, root =>
      match root.find? (fun e => e.name = n) with
      | some (.file _) => if rest.isEmpty then some .fileNode else none
      | some (.dir _ cs) => resolvePath rest cs
      | none => none

/-- `fse.pathExists` on the tree. -/
def pathExistsAt (tree : List FsEntry) (p : List String) : Bool :=
  (resolvePath p tree).isSome

/-- The children of the directory at `p`, or `none` when `readdir` would
throw (missing path or a file). -/
def dirChildren (tree : List FsEntry) (p : List String) : Option (List FsEntry) :=
  match resolvePath p tree with
  | some (.dirNode cs) => some cs
  | _ => none

/-- Embeds `listTopLevelDirs` (installer.ts lines 112-115), with the
callers' catch-into-empty behaviour for a failing `readdir`. -/
def listTopLevelDirs (tree : List FsEntry) (p : List String) : List String :=
  match dirChildren tree p with
  | some cs => cs.filterMap (fun e => match e with | .dir n _ => some n | .file _ => none)
  | none => []

/-- Embeds the `ok` field of `isValidPackageFolder` (installer.ts lines
470-476): `fse.pathExists(join(folderPath, 'manifest.json'))`. -/
def isValidPackageFolderOk (tree : List FsEntry) (p : List String) : Bool :=
  pathExistsAt tree (p ++ ["manifest.json"])

/-- The `hasLayout` field of `isValidPackageFolder`. -/
def hasLayoutJson (tree : List FsEntry) (p : List String) : Bool :=
  pathExistsAt tree (p ++ ["layout.json"])

/-- The skip rule of the bounded walks: dot-prefixed names and the
well-known junk directory names. -/
def skipName (n : String) : Bool :=
  startsWithStr n "." || ["node_modules", "__macosx", ".git", ".svn", ".hg"].contains (lowerStr n)

/-- A directory listing directly contains a file named `manifest.json`
(case-insensitively), as `findManifestDirWithin` tests. -/
def hasManifestFile (cs : List FsEntry) : Bool :=
  cs.any (fun e => match e with | .file n => lowerStr n == "manifest.json" | .dir _ _ => false)

/-- Embeds the recursive `walk` of `findManifestDirWithin` (installer.ts
lines 478-516).  `fuel` is the remaining allowed depth (the source call
`walk(root, 0)` with `maxDepth` corresponds to `fuel = maxDepth + 1`);
the visited-directory counter is threaded, and the boolean in the fold
accumulator models the early `return null` of the current call when the
visit cap fires. -/
def fmdWalk (maxVisited : Nat) : Nat → List FsEntry → List String → Nat → Option (List String) × Nat
  | 0, _, _, v => (none, v)
  | fuel + 1, cs, curPath, v =>
      if hasManifestFile cs then (some curPath, v)
      else
        let r := cs.foldl (fun (acc : Option (List String) × Nat × Bool) e =>
          match acc with
          | (some p, v1, st) => (some p, v1, st)
          | (none, v1, true) => (none, v1, true)
          | (none, v1, false) =>
              match e with
              | .file _ => (none, v1, false)
              | .dir n sub =>
                  if skipName n then (none, v1, false)
                  else if v1 + 1 > maxVisited then (none, v1 + 1, true)
                  else
                    let w := fmdWalk maxVisited fuel sub (curPath ++ [n]) (v1 + 1)
                    (w.1, w.2, false)) (none, v, false)
        (r.1, r.2.1)

/-- One hit of the bounded package scan (installer.ts lines 518-572). -/
structure ScanHit where
  folderName : String
  folderPath : List String
  hasManifest : Bool
  hasLayout : Bool
  deriving DecidableEq, Repr

/-- Embeds the recursive `walk` of `scanForPackages` (installer.ts lines
533-568).  Unlike `fmdWalk`, the hit list, the visit counter and the
`capped` flag are all shared across the whole scan, so the accumulator
is threaded through recursive calls and the flag propagates. -/
def scanWalk (maxVisited : Nat) : Nat → List FsEntry → List String →
    List ScanHit × Nat × Bool → List ScanHit × Nat × Bool
  | 0, _, _, acc => acc
  | fuel + 1, cs, curPath, acc =>
      if acc.2.2 then acc
      else
        cs.foldl (fun acc e =>
          if acc.2.2 then acc
          else
            match e with
            | .file _ => acc
            | .dir n sub =>
                if skipName n then acc
                else if acc.2.1 + 1 > maxVisited then (acc.1, acc.2.1 + 1, true)
                else
                  let p := curPath ++ [n]
                  let v1 := acc.2.1 + 1
                  if pathExistsAt sub ["manifest.json"] then
                    (acc.1 ++ [⟨n, p, true, pathExistsAt sub ["layout.json"]⟩], v1, false)
                  else scanWalk maxVisited fuel sub p (acc.1, v1, false)) acc

/-- Lower-cased path key, modelling the source's `toLowerCase()` de-dupe
keys on rendered paths. -/
def lowerKey (p : List String) : List String :=
  p.map lowerStr

/-- Order-preserving de-duplication by lower-cased path. -/
def dedupePaths (roots : List (List String)) : List (List String) :=
  (roots.foldl (fun (acc : List (List String) × List (List String)) r =>
    if acc.2.contains (lowerKey r) then acc
    else (acc.1 ++ [r], acc.2 ++ [lowerKey r])) ([], [])).1

/-- Embeds `buildCandidateRoots` (installer.ts lines 425-468): the
extraction root, its sole child directory (wrapper) when unique, a
top-level `Community` child, and the wrapper's `Community` child, in that
order, de-duplicated case-insensitively. -/
def buildCandidateRoots (tree : List FsEntry) : List (List String) :=
  let topDirs := listTopLevelDirs tree []
  let wrapperRoot : Option (List String) :=
    match topDirs with
    | [d] => some [d]
    | _ => none
  let roots := [([] : List String)] ++ (match wrapperRoot with | some w => [w] | none => [])
  let roots := if topDirs.contains "Community" then roots ++ [["Community"]] else roots
  let roots :=
    match wrapperRoot with
    | some w =>
        if (listTopLevelDirs tree w).contains "Community" then roots ++ [w ++ ["Community"]]
        else roots
    | none => roots
  dedupePaths roots

/-- `basename` of a candidate-root path; the extraction root itself keeps
the name of the extraction directory (`rootName`, `extracted` in the
pipeline). -/
def basenameOf (p : List String) (rootName : String) : String :=
  p.getLast?.getD rootName

/-- Embeds `tryResolveAt` inside `findExpectedPackages` (installer.ts
lines 676-689): accept the folder when it directly holds
`manifest.json`, otherwise search inside it up to depth 3 (visit cap
3000) for a directory holding the manifest marker. -/
def tryResolveAt (tree : List FsEntry) (p : List String) : Option (List String) :=
  if isValidPackageFolderOk tree p then some p
  else
    match dirChildren tree p with
    | some cs => (fmdWalk 3000 4 cs p 0).1
    | none => none

/-- The per-root, per-expected-name resolution of `findExpectedPackages`
(installer.ts lines 665-766): the direct child (case-insensitive match on
Windows), then one extra wrapper level below the candidate root. -/
def resolveExpectedAtRoot (isWin : Bool) (tree : List FsEntry) (root : List String)
    (rootName : String) (expectedName : String) : Option (List String) :=
  let rootDirNames := listTopLevelDirs tree root
  let endsWithExpected := lowerStr (basenameOf root rootName) == lowerStr expectedName
  let expectedPath := if endsWithExpected then root else root ++ [expectedName]
  let directPath :=
    if !endsWithExpected && isWin then
      match rootDirNames.find? (fun n => lowerStr n == lowerStr expectedName) with
      | some m => root ++ [m]
      | none => expectedPath
    else expectedPath
  match tryResolveAt tree directPath with
  | some r => some r
  | none =>
      rootDirNames.findSome? (fun w =>
        let subDirs := listTopLevelDirs tree (root ++ [w])
        let candidate :=
          if isWin then
            match subDirs.find? (fun n => lowerStr n == lowerStr expectedName) with
            | some m => root ++ [w, m]
            | none => root ++ [w, expectedName]
          else root ++ [w, expectedName]
        tryResolveAt tree candidate)

/-- Embeds `findExpectedPackages` (installer.ts lines 619-818): try every
candidate root in order, succeeding at the first root where every
expected folder resolves; otherwise fall back to the bounded
auto-detection scan over all candidate roots (maxDepth 6, visit cap 3000,
de-duplicated by path), succeeding only on exactly one detected package;
otherwise fail with the diagnostic error.  Logging and the tree preview
are pure observation and dropped. -/
def findExpectedPackages (isWin : Bool) (tree : List FsEntry) (rootName : String)
    (packageFolderNames : List String) :
    Except String (List String × List (String × List String)) :=
  let candidateRoots := buildCandidateRoots tree
  match candidateRoots.findSome? (fun root =>
      let found := packageFolderNames.filterMap (fun en =>
        (resolveExpectedAtRoot isWin tree root rootName en).map (fun r => (en, r)))
      if found.length = packageFolderNames.length then some (root, found) else none) with
  | some hit => .ok hit
  | none =>
      let detectedAll := candidateRoots.foldl (fun acc root =>
        acc ++ (match dirChildren tree root with
          | some cs => (scanWalk 3000 7 cs root ([], 0, false)).1
          | none => [])) []
      let detected := (detectedAll.foldl (fun (acc : List ScanHit × List (List String)) h =>
        if acc.2.contains (lowerKey h.folderPath) then acc
        else (acc.1 ++ [h], acc.2 ++ [lowerKey h.folderPath])) ([], [])).1
      match detected with
      | [only] => .ok ([], [(only.folderName, only.folderPath)])
      | _ =>
          .error ("Expected folder(s) not found: [" ++
            joinWith ", " packageFolderNames ++ "]. Detected packages: [" ++
            joinWith ", " (detected.map (·.folderName)) ++ "].")

/-! ## Raw (permissive) install source resolution (installer.ts,
resolveRawInstallSources) -/

/-- The source of one raw install unit: a directory of the extracted
tree, or the synthesized `rawroot` directory holding copies of the kept
top-level entries. -/
inductive RawSrc where
  | fromExtract (p : List String)
  | synthesizedRoot (entries : List FsEntry)

/-- JavaScript `String.includes`: substring containment. -/
def hasSub (s pat : String) : Bool :=
  hasSubStr s pat

/-- The sanitization of the synthesized raw root (installer.ts line 930):
an entry name is kept iff it is non-empty and contains no `..`, `/` or
backslash. -/
def safeRawName (n : String) : Bool :=
  !(n == "" || hasSub n ".." || hasSub n "/" || hasSub n "\\")

/-- The per-name candidate-root search of the explicit-names branch of
`resolveRawInstallSources` (installer.ts lines 845-896): a direct child
directory of a candidate root, else one wrapper level down; no manifest
marker is required, but the match must be a directory. -/
def rawLocate (isWin : Bool) (tree : List FsEntry) (candidateRoots : List (List String))
    (rootName : String) (expectedName : String) : Option (List String) :=
  candidateRoots.findSome? (fun root =>
    let endsWithExpected := lowerStr (basenameOf root rootName) == lowerStr expectedName
    let expectedPath := if endsWithExpected then root else root ++ [expectedName]
    let directPath :=
      if !endsWithExpected && isWin then
        match (listTopLevelDirs tree root).find? (fun n => lowerStr n == lowerStr expectedName) with
        | some m => root ++ [m]
        | none => expectedPath
      else expectedPath
    if (dirChildren tree directPath).isSome then some directPath
    else
      (listTopLevelDirs tree root).findSome? (fun w =>
        let subDirs := listTopLevelDirs tree (root ++ [w])
        let candidate :=
          if isWin then
            match subDirs.find? (fun n => lowerStr n == lowerStr expectedName) with
            | some m => root ++ [w, m]
            | none => root ++ [w, expectedName]
          else root ++ [w, expectedName]
        if (dirChildren tree candidate).isSome then some candidate else none))

/-- The explicit-names loop of `resolveRawInstallSources`, failing on the
first missing folder. -/
def rawExplicitLoop (isWin : Bool) (tree : List FsEntry) (candidateRoots : List (List String))
    (rootName : String) : List String → Except String (List (String × RawSrc))
  | [] => .ok []
  | en :: rest =>
      match rawLocate isWin tree candidateRoots rootName en with
      | none => .error ("RAW MODE: could not locate folder " ++ en)
      | some p => (rawExplicitLoop isWin tree candidateRoots rootName rest).map
          ((en, RawSrc.fromExtract p) :: ·)

/-- Embeds `resolveRawInstallSources` (installer.ts lines 828-935).  With
explicit folder names, locate each by name among the candidate roots
(the `assertUnder` re-check always passes for these constructed paths and
is elided).  With no explicit names: a single top-level directory and no
loose files becomes the one unit; otherwise every top-level entry with a
safe name is copied into a synthesized root named after the addon id. -/
def resolveRawInstallSources (isWin : Bool) (addonId : String) (tree : List FsEntry)
    (rootName : String) (expectedFolderNames : List String) :
    Except String (List (String × RawSrc)) :=
  if expectedFolderNames.length != 0 then
    rawExplicitLoop isWin tree (buildCandidateRoots tree) rootName expectedFolderNames
  else
    let dirs := tree.filterMap (fun e => match e with | .dir n _ => some n | .file _ => none)
    let files := tree.filterMap (fun e => match e with | .file n => some n | .dir _ _ => none)
    match dirs, files with
    | [name], [] => .ok [(name, .fromExtract [name])]
    | _, _ => .ok [(addonId, .synthesizedRoot (tree.filter (fun e => safeRawName e.name)))]

/-! ## Atomic installer (installer.ts, atomicInstallFolders)

The destination filesystem is modelled as a partial map from absolute
paths to opaque directory contents (a `Nat`).  `fse.remove`, `fse.move`
(rename with overwrite) and the staged directory copy act on whole
directory trees, so one map entry stands for one directory tree.  Fallible
operations consume a tick of an operation counter; a failure oracle
`failAt` makes the operation at that tick throw instead of acting (an
operation either completes or has no effect, matching rename atomicity).
The oracle covers the steps of the stage→swap→commit sequence inside the
`try` block: the source pre-scan, the staging copies, the backup moves and
the commit moves.  The pre-cleanup before the `try` and the post-success
backup deletion lie outside that sequence and are modelled as succeeding;
the rollback operations of the `catch` block swallow their own errors in
the source and are likewise modelled as succeeding. -/

/-- The destination filesystem: directory tree content by absolute path. -/
abbrev Fsm := String → Option Nat

/-- Write (or with `none`: remove) the directory tree at a path. -/
def fsSet (fs : Fsm) (k : String) (v : Option Nat) : Fsm :=
  fun x => if x = k then v else fs x

/-- `fse.move(src, dst, overwrite)`: the tree at `src` replaces `dst`. -/
def fsMove (fs : Fsm) (src dst : String) : Fsm :=
  fun x => if x = dst then fs src else if x = src then none else fs x

/-- One install unit handed to `atomicInstallFolders`. -/
structure InstallUnit where
  folderName : String
  srcPath : String
  deriving DecidableEq, Repr

/-- `join(communityPath, folderName)`. -/
def dstPath (cp : String) (u : InstallUnit) : String :=
  cp ++ "/" ++ u.folderName

/-- The hidden staging sibling (installer.ts line 1001). -/
def stagePath (cp : String) (u : InstallUnit) : String :=
  cp ++ "/." ++ u.folderName ++ ".dsfc-stage"

/-- The hidden backup sibling (installer.ts line 1002). -/
def backupPath (cp : String) (u : InstallUnit) : String :=
  cp ++ "/." ++ u.folderName ++ ".dsfc-backup"

/-- Errors of the embedded atomic installer: the oracle-injected failure,
or the pre-scan's own `Package folder not found` throw. -/
inductive AtErr where
  | injected
  | srcMissing
  deriving DecidableEq, Repr

/-- Operation counter plus filesystem. -/
structure AtState where
  cnt : Nat
  fs : Fsm

/-- Removal of one unit's staging and backup artifacts. -/
def sweepStep (cp : String) (fs : Fsm) (u : InstallUnit) : Fsm :=
  fsSet (fsSet fs (stagePath cp u) none) (backupPath cp u) none

/-- The stale-artifact cleanup before the `try` (installer.ts lines
1010-1013). -/
def precleanFs (cp : String) (units : List InstallUnit) (fs : Fsm) : Fsm :=
  units.foldl (sweepStep cp) fs

/-- The pre-scan loop (installer.ts lines 1023-1030): per unit, one
fallible check that the source folder exists. -/
def preScanLoop (failAt : Option Nat) : List InstallUnit → AtState →
    Except (AtErr × AtState) AtState
  | [], st => .ok st
  | u :: rest, st =>
      if failAt == some st.cnt then .error (.injected, st)
      else if (st.fs u.srcPath).isNone then .error (.srcMissing, st)
      else preScanLoop failAt rest { cnt := st.cnt + 1, fs := st.fs }

/-- The staging copies (installer.ts lines 1041-1051): per unit, one
fallible copy of the source tree into the staging path. -/
def stageLoop (cp : String) (failAt : Option Nat) : List InstallUnit → AtState →
    Except (AtErr × AtState) AtState
  | [], st => .ok st
  | u :: rest, st =>
      if failAt == some st.cnt then .error (.injected, st)
      else stageLoop cp failAt rest
        { cnt := st.cnt + 1, fs := fsSet st.fs (stagePath cp u) (st.fs u.srcPath) }

/-- The swap loop (installer.ts lines 1062-1069): per unit, the guarded
move of an existing destination to its backup, the `movedToBackup` push,
then the fallible commit move of the staged copy onto the destination.
`pushed` lists the pushed units most recent first, matching the reversed
iteration of the rollback. -/
def swapLoop (cp : String) (failAt : Option Nat) : List InstallUnit → AtState →
    List InstallUnit → Except (AtErr × AtState × List InstallUnit) (AtState × List InstallUnit)
  | [], st, pushed => .ok (st, pushed)
  | u :: rest, st, pushed =>
      if failAt == some st.cnt then .error (.injected, st, pushed)
      else
        let fs1 := if (st.fs (dstPath cp u)).isSome then fsMove st.fs (dstPath cp u) (backupPath cp u)
          else st.fs
        let st1 : AtState := { cnt := st.cnt + 1, fs := fs1 }
        let pushed1 := u :: pushed
        if failAt == some st1.cnt then .error (.injected, st1, pushed1)
        else
          let st2 : AtState := { cnt := st1.cnt + 1, fs := fsMove st1.fs (stagePath cp u) (dstPath cp u) }
          swapLoop cp failAt rest st2 pushed1

/-- One unit's rollback: remove the new destination, restore the backup
when present, remove the staging leftover. -/
def rollbackStep (cp : String) (fs : Fsm) (m : InstallUnit) : Fsm :=
  let fs1 := fsSet fs (dstPath cp m) none
  let fs2 := if (fs1 (backupPath cp m)).isSome then fsMove fs1 (backupPath cp m) (dstPath cp m)
    else fs1
  fsSet fs2 (stagePath cp m) none

/-- The rollback of the `catch` block (installer.ts lines 1079-1097):
for every pushed unit, most recent first, remove the new destination,
restore the backup when present, and remove the staging leftover. -/
def rollbackFs (cp : String) (pushed : List InstallUnit) (fs : Fsm) : Fsm :=
  pushed.foldl (rollbackStep cp) fs

/-- The final sweep of the `catch` block (installer.ts lines 1100-1103):
remove every staging and backup path. -/
def cleanupAllFs (cp : String) (units : List InstallUnit) (fs : Fsm) : Fsm :=
  units.foldl (sweepStep cp) fs

/-- The backup deletion on full success (installer.ts lines 1072-1074). -/
def removeBackupsFs (cp : String) (units : List InstallUnit) (fs : Fsm) : Fsm :=
  units.foldl (fun fs u => fsSet fs (backupPath cp u) none) fs

/-- Embeds `atomicInstallFolders` (installer.ts lines 981-1107):
pre-cleanup, then the fallible stage→swap→commit sequence under the
failure oracle; on success the backups are deleted and the committed
destination paths returned, on any failure the rollback and sweep run and
the original error is re-raised (returned unchanged). -/
def atomicInstallFolders (cp : String) (units : List InstallUnit) (fs0 : Fsm)
    (failAt : Option Nat) : Except AtErr (List String) × Fsm :=
  let fs1 := precleanFs cp units fs0
  match preScanLoop failAt units { cnt := 0, fs := fs1 } with
  | .error (e, st) => (.error e, cleanupAllFs cp units (rollbackFs cp [] st.fs))
  | .ok st =>
      match stageLoop cp failAt units st with
      | .error (e, st2) => (.error e, cleanupAllFs cp units (rollbackFs cp [] st2.fs))
      | .ok st2 =>
          match swapLoop cp failAt units st2 [] with
          | .error (e, st3, pushed) => (.error e, cleanupAllFs cp units (rollbackFs cp pushed st3.fs))
          | .ok (st3, _) => (.ok (units.map (dstPath cp)), removeBackupsFs cp units st3.fs)

/-- The three paths of one unit are pairwise distinct (automatic from the
naming convention for sane folder names). -/
def sepSelf (cp : String) (u : InstallUnit) : Prop :=
  dstPath cp u ≠ stagePath cp u ∧ dstPath cp u ≠ backupPath cp u ∧
    stagePath cp u ≠ backupPath cp u

/-- No path of one unit collides with any path of another unit. -/
def sepPair (cp : String) (u v : InstallUnit) : Prop :=
  dstPath cp u ≠ dstPath cp v ∧ dstPath cp u ≠ stagePath cp v ∧ dstPath cp u ≠ backupPath cp v ∧
  stagePath cp u ≠ dstPath cp v ∧ stagePath cp u ≠ stagePath cp v ∧
    stagePath cp u ≠ backupPath cp v ∧
  backupPath cp u ≠ dstPath cp v ∧ backupPath cp u ≠ stagePath cp v ∧
    backupPath cp u ≠ backupPath cp v

/-- The distinctness of the 3n destination, staging and backup paths of an
install: automatic in the source from the path naming convention for sane
folder names, stated as the hypothesis under which the swap is
transactional. -/
def UnitsSep (cp : String) (units : List InstallUnit) : Prop :=
  (∀ u ∈ units, sepSelf cp u) ∧ units.Pairwise (sepPair cp)

/-! ## Reconciliation engine (ipc.ts, ADDON_RECONCILE handler, lines
137-321)

The handler is embedded as a pure store transformer over an environment
fixing everything it reads: the base path setting, the fetched manifest,
the top-level directory listing of the install path (`none` models the
`readdir` failure branch), a path-existence oracle, and the per-folder
package-manifest version read.  `setInstalled` writes are applied to the
evolving store while both loops iterate snapshots taken before them, as
in the source. -/

/-- Environment of one reconciliation run. -/
structure ReconcileEnv where
  basePath : Option String
  manifestOk : Bool
  addons : List MAddon
  communityDirs : Option (List String)
  pathExistsF : String → Bool
  dirVersion : String → Option String
  now : String

/-- Association-map write with JavaScript `Map.set` semantics. -/
def listSetKV (m : List (String × String)) (k v : String) : List (String × String) :=
  if m.any (·.1 == k) then m.map (fun p => if p.1 == k then (k, v) else p) else m ++ [(k, v)]

/-- Association-map read. -/
def listGetKV (m : List (String × String)) (k : String) : Option String :=
  (m.find? (·.1 == k)).map (·.2)

/-- Embeds `inferInstalledChannel` (ipc.ts lines 141-151): match the
trimmed installed version against the channel versions in
stable/beta/dev order; `null` for a blank or `unknown` version,
`"unknown"` when nothing matches. -/
def inferInstalledChannel (a : MAddon) (installedVersion : String) : Option String :=
  let v := trimStr installedVersion
  if v == "" || v == "unknown" then none
  else if (match a.stable with | some ch => ch.version == v | none => false) then some "stable"
  else if (match a.beta with | some ch => ch.version == v | none => false) then some "beta"
  else if (match a.dev with | some ch => ch.version == v | none => false) then some "dev"
  else some "unknown"

/-- Embeds the `folderMeta` build (ipc.ts lines 184-201): for each listed
directory, the version read from its package manifest, keyed by
lower-cased folder name; a blank version is not recorded. -/
def metaMap (env : ReconcileEnv) (dirs : List String) : List (String × String) :=
  dirs.foldl (fun acc dir =>
    match env.dirVersion dir with
    | some v => if v != "" then listSetKV acc (lowerStr dir) v else acc
    | none => acc) []

/-- Embeds the `folderToAddon` reverse-lookup build (ipc.ts lines
205-227): explicit expected-folder claims, the addon-id convention
fallback for addons without explicit folders, and removal of keys claimed
by more than one addon. -/
def folderToAddon (addons : List MAddon) : List (String × String) :=
  let built := addons.foldl (fun (acc : List (String × String) × List String) a =>
    let acc := a.packageFolderNames.foldl (fun (acc2 : List (String × String) × List String) folder =>
      let key := lowerStr folder
      match listGetKV acc2.1 key with
      | some v => if v != a.id then (acc2.1, acc2.2 ++ [key]) else acc2
      | none => (listSetKV acc2.1 key a.id, acc2.2)) acc
    if a.packageFolderNames.isEmpty then
      let key := lowerStr a.id
      if (listGetKV acc.1 key).isSome then acc else (listSetKV acc.1 key a.id, acc.2)
    else acc) ([], [])
  built.1.filter (fun p => !built.2.contains p.1)

/-- The addon a listed directory maps to. -/
def folderAddonId (addons : List MAddon) (dirName : String) : Option String :=
  listGetKV (folderToAddon addons) (lowerStr dirName)

/-- The directories of the listing claimed by one addon, in listing order
(the `foundByAddon` entry of ipc.ts lines 230-237). -/
def foundFolders (addons : List MAddon) (dirs : List String) (addonId : String) : List String :=
  dirs.filter (fun d => folderAddonId addons d == some addonId)

/-- The addon ids of `foundByAddon`, in first-occurrence order (JavaScript
`Map` insertion order). -/
def foundAddonKeys (addons : List MAddon) (dirs : List String) : List String :=
  (dirs.filterMap (folderAddonId addons)).foldl
    (fun acc x => if acc.contains x then acc else acc ++ [x]) []

/-- `path.join(basePath, folder)`. -/
def joinPath2 (basePath f : String) : String :=
  basePath ++ "/" ++ f

/-- The version inference loop over observed folders (ipc.ts lines
260-267 and 293-300): the first non-blank folder-manifest version. -/
def inferredVersion (meta : List (String × String)) (folders : List String) : Option String :=
  folders.findSome? (fun f =>
    match listGetKV meta (lowerStr f) with
    | some v => if v != "" then some v else none
    | none => none)

/-- The record written by the update branch of the update/delete loop
(ipc.ts lines 272-279). -/
def stepAUpdated (env : ReconcileEnv) (basePath : String) (dirs : List String)
    (addonId : String) (rec : StoreRec) : StoreRec :=
  let observedFolders := foundFolders env.addons dirs addonId
  let valid := (observedFolders.map (joinPath2 basePath)).filter env.pathExistsF
  let inferred := inferredVersion (metaMap env dirs) observedFolders
  let addonQ := env.addons.find? (fun a => a.id == addonId)
  let installedVersion :=
    match inferred with
    | some iv => if rec.installedVersion == "unknown" then iv else rec.installedVersion
    | none => rec.installedVersion
  { rec with
    installed := true
    installedPaths := valid
    installedVersion := installedVersion
    installPath := some (rec.installPath.getD basePath)
    installedChannel :=
      match addonQ with
      | some a => inferInstalledChannel a installedVersion
      | none => some (rec.installedChannel.getD "unknown") }

/-- The per-record body of the update/delete loop (ipc.ts lines 241-281):
`none` for no `setInstalled` call, `some v` for `setInstalled addonId v`. -/
def stepAOpt (env : ReconcileEnv) (basePath : String) (dirs : List String)
    (addonId : String) (rec : StoreRec) : Option (Option StoreRec) :=
  let observedFolders := foundFolders env.addons dirs addonId
  if observedFolders.isEmpty then
    if rec.installedPaths.any env.pathExistsF then none
    else some none
  else
    let valid := (observedFolders.map (joinPath2 basePath)).filter env.pathExistsF
    if valid.isEmpty then none
    else some (some (stepAUpdated env basePath dirs addonId rec))

/-- The update/delete loop over the snapshot of persisted records. -/
def phaseA (env : ReconcileEnv) (basePath : String) (dirs : List String)
    (entries : Store) (store : Store) : Store :=
  entries.foldl (fun store p =>
    match stepAOpt env basePath dirs p.1 p.2 with
    | none => store
    | some v => storeSet store p.1 v) store

/-- The record created for an untracked addon (ipc.ts lines 305-313). -/
def stepBNew (env : ReconcileEnv) (basePath : String) (dirs : List String)
    (addonId : String) : StoreRec :=
  let folders := foundFolders env.addons dirs addonId
  let valid := (folders.map (joinPath2 basePath)).filter env.pathExistsF
  let inferred := inferredVersion (metaMap env dirs) folders
  let addonQ := env.addons.find? (fun a => a.id == addonId)
  let installedVersion := inferred.getD "unknown"
  { addonId := addonId
    installed := true
    installedChannel :=
      match addonQ with
      | some a => inferInstalledChannel a installedVersion
      | none => some "unknown"
    installedVersion := installedVersion
    installPath := some basePath
    installedAt := env.now
    installedPaths := valid }

/-- The new record built for an untracked addon (ipc.ts lines 285-313),
when its observed folders yield at least one existing path. -/
def stepBOpt (env : ReconcileEnv) (basePath : String) (dirs : List String)
    (addonId : String) : Option StoreRec :=
  let folders := foundFolders env.addons dirs addonId
  let valid := (folders.map (joinPath2 basePath)).filter env.pathExistsF
  if valid.isEmpty then none
  else some (stepBNew env basePath dirs addonId)

/-- The creation loop for addons present on disk but untracked, over an
explicit key list, checking against the store snapshot taken after the
update loop. -/
def phaseBKeys (env : ReconcileEnv) (basePath : String) (dirs : List String)
    (snapshot : Store) (keys : List String) (store : Store) : Store :=
  keys.foldl (fun store id =>
    if (storeGet snapshot id).isSome then store
    else
      match stepBOpt env basePath dirs id with
      | none => store
      | some r => storeSet store id (some r)) store

/-- The creation loop for addons present on disk but untracked, checking
against the store snapshot taken after the update loop. -/
def phaseB (env : ReconcileEnv) (basePath : String) (dirs : List String)
    (snapshot : Store) (store : Store) : Store :=
  phaseBKeys env basePath dirs snapshot (foundAddonKeys env.addons dirs) store

/-- Proof-side characterization: the value reconciliation leaves at one
key after the creation loop, given the value the update loop left there. -/
def phaseBVal (env : ReconcileEnv) (basePath : String) (dirs : List String)
    (x : String) : Option StoreRec :=
  if x ∈ foundAddonKeys env.addons dirs then
    match stepBOpt env basePath dirs x with
    | some r => some r
    | none => none
  else none

/-- Proof-side characterization: the per-key effect of one reconciliation
run on the record stored at a key. -/
def recStep (env : ReconcileEnv) (basePath : String) (dirs : List String)
    (x : String) : Option StoreRec → Option StoreRec
  | some rec =>
      match stepAOpt env basePath dirs x rec with
      | none => some rec
      | some none => phaseBVal env basePath dirs x
      | some (some v) => some v
  | none => phaseBVal env basePath dirs x

/-- Embeds the ADDON_RECONCILE handler (ipc.ts lines 137-321) as a store
transformer.  With no base path set, records with any missing recorded
path are pruned; a failed manifest fetch, an empty addon list or a failed
install-path listing leave the store unchanged; otherwise the update loop
runs over the current records and the creation loop over the untracked
observed addons. -/
def reconcile (env : ReconcileEnv) (store : Store) : Store :=
  match env.basePath with
  | none =>
      store.foldl (fun st p =>
        if p.2.installedPaths.any (fun q => !env.pathExistsF q) then storeSet st p.1 none
        else st) store
  | some basePath =>
      if !env.manifestOk then store
      else if env.addons.isEmpty then store
      else
        match env.communityDirs with
        | none => store
        | some dirs =>
            let afterA := phaseA env basePath dirs store store
            phaseB env basePath dirs afterA afterA

/-! ## Concrete instances used by the closed theorems and witnesses -/

/-- The spec's strict-resolution test layout:
`wrapper/Community/MyPackage/manifest.json`. -/
def wrapperCommunityTree : List FsEntry :=
  [.dir "wrapper" [.dir "Community" [.dir "MyPackage" [.file "manifest.json"]]]]

/-- Three loose top-level files and no directories. -/
def looseFilesTree : List FsEntry := [.file "a.txt", .file "b.cfg", .file "c.bin"]

/-- An install environment whose download succeeds but whose archive hash
does not match the channel digest. -/
def mismatchedShaEnv : InstallEnv :=
  { urlValid := true, downloadOk := true, actualSha := "aa", expectedSha := "bb",
    extractOk := true, resolveOk := true, extractedBytes := 0, freeBytes := 0,
    installResult := .ok [], version := "1.0.0" }

/-- A digest mismatch that also differs in case. -/
def upperShaEnv : InstallEnv :=
  { urlValid := true, downloadOk := true, actualSha := "AA", expectedSha := "bb",
    extractOk := true, resolveOk := true, extractedBytes := 0, freeBytes := 0,
    installResult := .ok [], version := "1" }

/-- The spec's disk-guard instance: 10 GB extracted, 9 GB free. -/
def diskGuardEnv : InstallEnv :=
  { urlValid := true, downloadOk := true, actualSha := "ab", expectedSha := "AB",
    extractOk := true, resolveOk := true, extractedBytes := 10000000000,
    freeBytes := 9000000000, installResult := .ok [], version := "1" }

/-- A record installed from the stable channel. -/
def stableRec : StoreRec :=
  { addonId := "addonA", installed := true, installedChannel := some "stable",
    installedVersion := "1.0.0", installPath := some "/c", installedAt := "t0",
    installedPaths := ["/c/A"] }

/-- A record whose persisted channel is the literal `unknown`. -/
def unknownChanRec : StoreRec :=
  { addonId := "addonA", installed := true, installedChannel := some "unknown",
    installedVersion := "1.0.0", installPath := some "/c", installedAt := "t0",
    installedPaths := ["/c/A"] }

/-- A handler environment for the conflict case; the installer outcome is
irrelevant because the guard fires first. -/
def conflictEnv : InstallHandlerEnv :=
  { installPathSetting := some "/c", communityPathSetting := none, manifestOk := true,
    addons := [], installerResult := .error "unused", now := "t1" }

/-- A handler environment in which manifest lookup and the installer both
succeed for the requested beta channel. -/
def proceedEnv : InstallHandlerEnv :=
  { installPathSetting := some "/c", communityPathSetting := none, manifestOk := true,
    addons := [{ id := "addonA", packageFolderNames := ["A"], stable := some ⟨"1.0.0"⟩,
                 beta := some ⟨"2.0.0"⟩, dev := none }],
    installerResult := .ok (["/c/A2"], "2.0.0"), now := "t1" }

/-- First install unit of the two-unit atomicity scenario. -/
def unitA : InstallUnit := { folderName := "A", srcPath := "srcA" }

/-- Second install unit of the two-unit atomicity scenario. -/
def unitB : InstallUnit := { folderName := "B", srcPath := "srcB" }

/-- A destination filesystem with both target folders pre-existing and
both source trees present in scratch. -/
def twoUnitFs : Fsm := fun x =>
  if x = "c/A" then some 1 else if x = "c/B" then some 2
  else if x = "srcA" then some 10 else if x = "srcB" then some 20 else none

/-- The one-addon catalog of the reconciliation scenario: it claims the
package folder `AddonA` and publishes version 1.0.0 on the stable
channel. -/
def wRecAddon : MAddon :=
  { id := "addona", packageFolderNames := ["AddonA"], stable := some { version := "1.0.0" },
    beta := none, dev := none }

/-- A reconciliation environment: install path set, manifest fetched,
one observed community folder, every path present on disk, every folder
manifest reporting version 1.0.0. -/
def wRecEnv : ReconcileEnv :=
  { basePath := some "/c", manifestOk := true, addons := [wRecAddon],
    communityDirs := some ["AddonA"], pathExistsF := fun _ => true,
    dirVersion := fun _ => some "1.0.0", now := "t1" }

/-! # Theorems -/

/-- C1: for every install operation, if the SHA-256 digest of the fully
downloaded archive does not equal (case-insensitively) the channel's
expected digest, `installAddon` fails with the checksum-mismatch error and
neither extraction nor any later stage executes. -/
theorem digest_gate_blocks_extraction (env : InstallEnv)
    (hu : env.urlValid = true) (hd : env.downloadOk = true)
    (hm : lowerStr env.actualSha ≠ lowerStr env.expectedSha) :
    (installAddon env).1 = .error (.checksumMismatch env.expectedSha env.actualSha) ∧
      Step.extract ∉ (installAddon env).2 ∧
      Step.resolvePackages ∉ (installAddon env).2 ∧
      Step.atomicInstall ∉ (installAddon env).2 := by
  simp [installAddon, hu, hd, hm]

/-- Witness for C1 at a concrete digest mismatch. -/
theorem digest_gate_blocks_extraction_witness :
    (lowerStr "AA" ≠ lowerStr "bb") ∧
      ((installAddon upperShaEnv).1 = .error (.checksumMismatch "bb" "AA") ∧
        Step.extract ∉ (installAddon upperShaEnv).2 ∧
        Step.resolvePackages ∉ (installAddon upperShaEnv).2 ∧
        Step.atomicInstall ∉ (installAddon upperShaEnv).2) :=
  ⟨by decide, digest_gate_blocks_extraction upperShaEnv rfl rfl (by decide)⟩

/-- C2: the traversal guard of the extractor is a raw string-prefix check:
the entry `../extracted2/pwn.txt` under the scratch directory
`/tmp/work/extracted` passes the guard and writes a file outside the
scratch directory, while the spec's examples (`../../evil.txt`) are
rejected and in-tree entries extract normally — the code contradicts the
claimed guarantee at this input. -/
theorem traversal_guard_prefix_escape :
    extractEntries scratchDir ["../extracted2/pwn.txt"] = .ok [escapedPath] ∧
      underDir scratchDir escapedPath = false ∧
      (extractEntries scratchDir ["../../evil.txt"]).isOk = false ∧
      extractEntries scratchDir ["sub/ok.txt"] = .ok [["tmp", "work", "extracted", "sub", "ok.txt"]] :=
  ⟨rfl, rfl, rfl, rfl⟩

/-- C4: under the strict policy with `expectedPackageFolders=["MyPackage"]`
on the `wrapper/Community/MyPackage/manifest.json` layout, the candidate
roots are the extraction root, the wrapper and the wrapper's `Community`
child, and resolution returns exactly the unit `MyPackage` sourced at the
`MyPackage` directory. -/
theorem strict_resolver_wrapper_community :
    buildCandidateRoots wrapperCommunityTree = [[], ["wrapper"], ["wrapper", "Community"]] ∧
      findExpectedPackages false wrapperCommunityTree "extracted" ["MyPackage"] =
        .ok (["wrapper"], [("MyPackage", ["wrapper", "Community", "MyPackage"])]) :=
  ⟨rfl, rfl⟩

/-- C5: permissive policy with no explicit names: three loose top-level
files yield exactly one unit named after the addon id containing copies of
all three, and the synthesized unit never contains an entry whose name
fails the path-separator/parent-reference sanitization. -/
theorem permissive_loose_and_sanitized :
    (∀ (addonId rootName n1 n2 n3 : String),
        safeRawName n1 = true → safeRawName n2 = true → safeRawName n3 = true →
        resolveRawInstallSources false addonId [.file n1, .file n2, .file n3] rootName [] =
          .ok [(addonId, .synthesizedRoot [.file n1, .file n2, .file n3])]) ∧
    (∀ (addonId rootName : String) (tree : List FsEntry) (units : List (String × RawSrc))
        (l : List FsEntry),
        resolveRawInstallSources false addonId tree rootName [] = .ok units →
        (addonId, RawSrc.synthesizedRoot l) ∈ units →
        ∀ e ∈ l, safeRawName e.name = true) := by
  constructor
  · intro addonId rootName n1 n2 n3 h1 h2 h3
    simp [resolveRawInstallSources, FsEntry.name, h1, h2, h3]
  · intro addonId rootName tree units l hres hmem e hel
    simp only [resolveRawInstallSources, List.length_nil, bne_self_eq_false, Bool.false_eq_true,
      if_false] at hres
    split at hres
    · injection hres with h
      subst h
      simp at hmem
    · injection hres with h
      subst h
      simp at hmem
      subst hmem
      exact (List.mem_filter.mp hel).2

/-- Witness for C5 at the three concrete loose files. -/
theorem permissive_loose_and_sanitized_witness :
    (resolveRawInstallSources false "myaddon" [.file "a.txt", .file "b.cfg", .file "c.bin"]
        "extracted" [] =
        .ok [("myaddon", .synthesizedRoot [.file "a.txt", .file "b.cfg", .file "c.bin"])]) ∧
      safeRawName (FsEntry.file "a.txt").name = true := by
  exact ⟨permissive_loose_and_sanitized.1 "myaddon" "extracted" "a.txt" "b.cfg" "c.bin" rfl rfl rfl,
    permissive_loose_and_sanitized.2 "myaddon" "extracted"
      [.file "a.txt", .file "b.cfg", .file "c.bin"]
      [("myaddon", .synthesizedRoot [.file "a.txt", .file "b.cfg", .file "c.bin"])]
      [.file "a.txt", .file "b.cfg", .file "c.bin"]
      (permissive_loose_and_sanitized.1 "myaddon" "extracted" "a.txt" "b.cfg" "c.bin" rfl rfl rfl)
      (by simp) (.file "a.txt") (by simp)⟩

/-- The source's required-bytes formula agrees with the spec's
`ceil(extractedBytes × 1.2) + 200 MiB` over exact arithmetic. -/
theorem requiredBytes_eq_specFormula (x : Nat) :
    requiredBytesFromInstalledSize x = requiredBytesSpecFormula x := by
  unfold requiredBytesFromInstalledSize requiredBytesSpecFormula
  rw [show ((200 : ℚ) * 1024 * 1024) = ((209715200 : ℤ) : ℚ) by norm_num, Int.ceil_add_int]
  norm_num

/-- The spec's disk-guard figures: 9 GB free is below the requirement for
10 GB extracted. -/
theorem nine_gb_below_required : (9000000000 : Int) < requiredBytesFromInstalledSize 10000000000 := by
  unfold requiredBytesFromInstalledSize
  rw [show ((10000000000 : Nat) : ℚ) * (12 / 10) + 200 * 1024 * 1024 = ((12209715200 : ℤ) : ℚ) by
      norm_num,
    Int.ceil_intCast]
  norm_num

/-- C6: after resolution, the disk guard computes the required bytes by
the spec formula `ceil(extractedBytes × 1.2) + 200 MiB` and, whenever the
free bytes fall below it, fails with the insufficient-space error carrying
the required and available counts before the atomic install runs. -/
theorem disk_guard_blocks_install (env : InstallEnv)
    (hu : env.urlValid = true) (hd : env.downloadOk = true)
    (hsha : lowerStr env.actualSha = lowerStr env.expectedSha)
    (hx : env.extractOk = true) (hr : env.resolveOk = true)
    (hfree : (env.freeBytes : Int) < requiredBytesFromInstalledSize env.extractedBytes) :
    (installAddon env).1 =
        .error (.insufficientSpace (requiredBytesFromInstalledSize env.extractedBytes) env.freeBytes) ∧
      Step.atomicInstall ∉ (installAddon env).2 ∧
      Step.resolvePackages ∈ (installAddon env).2 ∧
      requiredBytesFromInstalledSize env.extractedBytes =
        Int.ceil ((env.extractedBytes : ℚ) * (12 / 10)) + 200 * 1024 * 1024 := by
  refine ⟨?_, ?_, ?_, ?_⟩
  · simp [installAddon, hu, hd, hsha, hx, hr, hfree]
  · simp [installAddon, hu, hd, hsha, hx, hr, hfree]
  · simp [installAddon, hu, hd, hsha, hx, hr, hfree]
  · have h := requiredBytes_eq_specFormula env.extractedBytes
    rw [h, requiredBytesSpecFormula]

/-- Witness for C6 at the spec's concrete byte counts. -/
theorem disk_guard_blocks_install_witness :
    ((9000000000 : Int) < requiredBytesFromInstalledSize 10000000000) ∧
      (installAddon diskGuardEnv).1 =
        .error (.insufficientSpace (requiredBytesFromInstalledSize 10000000000) 9000000000) ∧
      Step.atomicInstall ∉ (installAddon diskGuardEnv).2 :=
  ⟨nine_gb_below_required,
    (disk_guard_blocks_install diskGuardEnv rfl rfl (by decide) rfl rfl
      nine_gb_below_required).1,
    (disk_guard_blocks_install diskGuardEnv rfl rfl (by decide) rfl rfl
      nine_gb_below_required).2.1⟩

/-- C7: an install request for a channel different from the recorded
installed channel (a known channel, not `unknown`) fails with the
channel-conflict error with no stage executed and the store returned
unchanged. -/
theorem channel_conflict_blocks_install (env : InstallHandlerEnv) (store : Store)
    (addonId : String) (req : ChannelKey) (ex : StoreRec) (c : String) (p : String)
    (hpath : env.installPathSetting.or env.communityPathSetting = some p)
    (hex : storeGet store addonId = some ex)
    (hinst : ex.installed = true)
    (hc : ex.installedChannel = some c)
    (hne1 : c ≠ "unknown") (hne2 : c ≠ req.str) :
    addonInstallHandler env store addonId req =
      (.error "Channel switch not allowed. Uninstall current channel first.", store, []) := by
  unfold addonInstallHandler
  rw [hpath]
  simp [hex, hc, hinst, hne1, hne2]

/-- Witness for C7: beta requested over an installed stable record. -/
theorem channel_conflict_blocks_install_witness :
    addonInstallHandler conflictEnv [("addonA", stableRec)] "addonA" .beta =
      (.error "Channel switch not allowed. Uninstall current channel first.",
        [("addonA", stableRec)], []) :=
  channel_conflict_blocks_install conflictEnv [("addonA", stableRec)] "addonA" .beta
    stableRec "stable" "/c" rfl rfl rfl rfl (by decide) (by decide)

/-- C9 counterexample: a failing install (digest mismatch) exits without
the work-dir cleanup stage, refuting deletion on every exit path. -/
theorem workdir_not_cleaned_on_failing_exit :
    (installAddon mismatchedShaEnv).1 = .error (.checksumMismatch "bb" "aa") ∧
      Step.cleanupWorkDir ∉ (installAddon mismatchedShaEnv).2 := by
  constructor
  · rfl
  · decide

/-- C9 as amended: the transient work directory is deleted best-effort
exactly on the success path; every failing exit path skips the cleanup. -/
theorem workdir_cleanup_only_on_success (env : InstallEnv) :
    Step.cleanupWorkDir ∈ (installAddon env).2 ↔ (installAddon env).1.isOk = true := by
  rcases h : env.installResult with e | r <;>
    · unfold installAddon
      simp only [h]
      split_ifs <;> simp [Except.isOk, Except.toBool]

/-- C10: when the persisted record's installed channel is the literal
`unknown` or absent, the conflict guard passes and the handler proceeds
to run the installer and overwrite the record with the requested
channel. -/
theorem unknown_channel_install_proceeds (env : InstallHandlerEnv) (store : Store)
    (addonId : String) (req : ChannelKey) (ex : StoreRec) (p : String) (a : MAddon)
    (ch : MChannel) (paths : List String) (ver : String)
    (hpath : env.installPathSetting.or env.communityPathSetting = some p)
    (hex : storeGet store addonId = some ex)
    (hchan : ex.installedChannel = some "unknown" ∨ ex.installedChannel = none)
    (hman : env.manifestOk = true)
    (hfind : env.addons.find? (fun a2 => a2.id = addonId) = some a)
    (hch : a.channelOf req = some ch)
    (hres : env.installerResult = .ok (paths, ver)) :
    (addonInstallHandler env store addonId req).1 =
        .ok (storeSet store addonId (some
          { addonId := addonId, installed := true, installedChannel := some req.str,
            installedVersion := ver, installPath := some p, installedAt := env.now,
            installedPaths := paths })) ∧
      HStep.runInstaller ∈ (addonInstallHandler env store addonId req).2.2 := by
  unfold addonInstallHandler
  rw [hpath]
  rcases hchan with h | h <;> simp [hex, h, hman, hfind, hch, hres]

/-- Witness for C10: a beta install over a record with channel
`unknown`. -/
theorem unknown_channel_install_proceeds_witness :
    (addonInstallHandler proceedEnv [("addonA", unknownChanRec)] "addonA" .beta).1 =
        .ok (storeSet [("addonA", unknownChanRec)] "addonA" (some
          { addonId := "addonA", installed := true, installedChannel := some "beta",
            installedVersion := "2.0.0", installPath := some "/c", installedAt := "t1",
            installedPaths := ["/c/A2"] })) ∧
      HStep.runInstaller ∈
        (addonInstallHandler proceedEnv [("addonA", unknownChanRec)] "addonA" .beta).2.2 :=
  unknown_channel_install_proceeds proceedEnv [("addonA", unknownChanRec)] "addonA" .beta
    unknownChanRec "/c" _ _ ["/c/A2"] "2.0.0" rfl rfl (Or.inl rfl) rfl rfl rfl rfl

/-- Pointwise evaluation of a filesystem write. -/
theorem fsSet_eval (fs : Fsm) (k : String) (v : Option Nat) (x : String) :
    fsSet fs k v x = if x = k then v else fs x := rfl

/-- Pointwise evaluation of a filesystem move. -/
theorem fsMove_eval (fs : Fsm) (a b x : String) :
    fsMove fs a b x = if x = b then fs a else if x = a then none else fs x := rfl

/-- Path separation between two units is symmetric. -/
theorem sepPair_symm {cp : String} {u v : InstallUnit} (h : sepPair cp u v) : sepPair cp v u := by
  obtain ⟨h1, h2, h3, h4, h5, h6, h7, h8, h9⟩ := h
  exact ⟨h1.symm, h4.symm, h7.symm, h2.symm, h5.symm, h8.symm, h3.symm, h6.symm, h9.symm⟩

/-- A sweep of one unit leaves unrelated paths alone. -/
theorem sweepStep_frame {cp : String} {u : InstallUnit} {x : String}
    (h1 : stagePath cp u ≠ x) (h2 : backupPath cp u ≠ x) (fs : Fsm) :
    sweepStep cp fs u x = fs x := by
  simp [sweepStep, fsSet_eval, Ne.symm h1, Ne.symm h2]

/-- A sweep over a unit list leaves unrelated paths alone. -/
theorem sweep_frame {cp : String} {l : List InstallUnit} {x : String}
    (h : ∀ u ∈ l, stagePath cp u ≠ x ∧ backupPath cp u ≠ x) (fs : Fsm) :
    l.foldl (sweepStep cp) fs x = fs x := by
  induction l generalizing fs with
  | nil => rfl
  | cons m rest ih =>
      have hm := h m (List.mem_cons_self m rest)
      rw [List.foldl_cons, ih (fun u hu => h u (List.mem_cons_of_mem m hu)),
        sweepStep_frame hm.1 hm.2]

/-- A sweep never creates content: an absent path stays absent. -/
theorem sweep_none_stable {cp : String} {l : List InstallUnit} {x : String} {fs : Fsm}
    (h : fs x = none) : l.foldl (sweepStep cp) fs x = none := by
  induction l generalizing fs with
  | nil => exact h
  | cons m rest ih =>
      rw [List.foldl_cons]
      refine ih ?_
      simp only [sweepStep, fsSet_eval]
      split_ifs <;> simp [h]

/-- A sweep removes the staging path of every swept unit. -/
theorem sweep_mem_stage {cp : String} {l : List InstallUnit} {u : InstallUnit}
    (hu : u ∈ l) (fs : Fsm) : l.foldl (sweepStep cp) fs (stagePath cp u) = none := by
  induction l generalizing fs with
  | nil => cases hu
  | cons m rest ih =>
      rw [List.foldl_cons]
      rcases List.mem_cons.mp hu with h | h
      · subst h
        by_cases hb : backupPath cp u = stagePath cp u
        · refine sweep_none_stable ?_
          simp [sweepStep, fsSet_eval, hb]
        · refine sweep_none_stable ?_
          simp [sweepStep, fsSet_eval, Ne.symm hb]
      · exact ih h _

/-- A sweep removes the backup path of every swept unit. -/
theorem sweep_mem_backup {cp : String} {l : List InstallUnit} {u : InstallUnit}
    (hu : u ∈ l) (fs : Fsm) : l.foldl (sweepStep cp) fs (backupPath cp u) = none := by
  induction l generalizing fs with
  | nil => cases hu
  | cons m rest ih =>
      rw [List.foldl_cons]
      rcases List.mem_cons.mp hu with h | h
      · subst h
        refine sweep_none_stable ?_
        simp [sweepStep, fsSet_eval]
      · exact ih h _

/-- One rollback step leaves unrelated paths alone. -/
theorem rollbackStep_frame {cp : String} {m : InstallUnit} {x : String}
    (h1 : dstPath cp m ≠ x) (h2 : stagePath cp m ≠ x) (h3 : backupPath cp m ≠ x) (fs : Fsm) :
    rollbackStep cp fs m x = fs x := by
  simp only [rollbackStep]
  by_cases hb : (fsSet fs (dstPath cp m) none (backupPath cp m)).isSome = true
  · rw [if_pos hb]
    simp [fsSet_eval, fsMove_eval, Ne.symm h1, Ne.symm h2, Ne.symm h3]
  · rw [if_neg hb]
    simp [fsSet_eval, Ne.symm h1, Ne.symm h2]

/-- One rollback step leaves the destination holding exactly what the backup held (absent backup gives absent destination). -/
theorem rollbackStep_dst {cp : String} {m : InstallUnit} (hself : sepSelf cp m) (fs : Fsm) :
    rollbackStep cp fs m (dstPath cp m) = fs (backupPath cp m) := by
  obtain ⟨h1, h2, h3⟩ := hself
  simp only [rollbackStep]
  rcases hfb : fs (backupPath cp m) with _ | v
  · rw [show fsSet fs (dstPath cp m) none (backupPath cp m) = none by
        simp [fsSet_eval, Ne.symm h2, hfb]]
    simp [fsSet_eval, h1, hfb]
  · rw [show fsSet fs (dstPath cp m) none (backupPath cp m) = some v by
        simp [fsSet_eval, Ne.symm h2, hfb]]
    simp [fsSet_eval, fsMove_eval, h1, Ne.symm h2, hfb]

/-- The rollback loop leaves paths of unpushed units alone. -/
theorem rollback_frame {cp : String} {pushed : List InstallUnit} {x : String}
    (h : ∀ m ∈ pushed, dstPath cp m ≠ x ∧ stagePath cp m ≠ x ∧ backupPath cp m ≠ x)
    (fs : Fsm) : rollbackFs cp pushed fs x = fs x := by
  unfold rollbackFs
  induction pushed generalizing fs with
  | nil => rfl
  | cons m rest ih =>
      have hm := h m (List.mem_cons_self m rest)
      rw [List.foldl_cons, ih (fun v hv => h v (List.mem_cons_of_mem m hv)),
        rollbackStep_frame hm.1 hm.2.1 hm.2.2]

/-- After the rollback loop, each pushed unit's destination holds what its backup held when the rollback started. -/
theorem rollback_mem_dst {cp : String} {pushed : List InstallUnit} {u : InstallUnit}
    (hu : u ∈ pushed) (hP : pushed.Pairwise (sepPair cp))
    (hself : sepSelf cp u) (fs : Fsm) :
    rollbackFs cp pushed fs (dstPath cp u) = fs (backupPath cp u) := by
  unfold rollbackFs
  induction pushed generalizing fs with
  | nil => cases hu
  | cons m rest ih =>
      rw [List.foldl_cons]
      rcases List.pairwise_cons.mp hP with ⟨hmrest, hPrest⟩
      by_cases h : u = m
      · subst h
        have hframe : ∀ v ∈ rest, dstPath cp v ≠ dstPath cp u ∧ stagePath cp v ≠ dstPath cp u ∧
            backupPath cp v ≠ dstPath cp u := by
          intro v hv
          obtain ⟨a1, a2, a3, a4, a5, a6, a7, a8, a9⟩ := hmrest v hv
          exact ⟨a1.symm, a2.symm, a3.symm⟩
        have := @rollback_frame cp rest (dstPath cp u) hframe
          (rollbackStep cp fs u)
        unfold rollbackFs at this
        rw [this, rollbackStep_dst hself]
      · have hurest : u ∈ rest := by
          rcases List.mem_cons.mp hu with h1 | h1
          · exact absurd h1 h
          · exact h1
        have hsep := hmrest u hurest
        obtain ⟨a1, a2, a3, a4, a5, a6, a7, a8, a9⟩ := hsep
        rw [ih hurest hPrest, rollbackStep_frame a3 a6 a9]

/-- The source pre-scan performs no writes, also on its error exits. -/
theorem preScanLoop_err_fs {failAt : Option Nat} {l : List InstallUnit} {st st2 : AtState}
    {e : AtErr} (h : preScanLoop failAt l st = .error (e, st2)) : st2.fs = st.fs := by
  induction l generalizing st with
  | nil => simp [preScanLoop] at h
  | cons m rest ih =>
      unfold preScanLoop at h
      split_ifs at h with h1 h2
      · injection h with h3
        rw [← Prod.mk.injEq _ _ _ _ |>.mp h3 |>.2]
      · injection h with h3
        rw [← Prod.mk.injEq _ _ _ _ |>.mp h3 |>.2]
      · have h4 := ih h
        exact h4

/-- The source pre-scan performs no writes. -/
theorem preScanLoop_ok_fs {failAt : Option Nat} {l : List InstallUnit} {st st2 : AtState}
    (h : preScanLoop failAt l st = .ok st2) : st2.fs = st.fs := by
  induction l generalizing st with
  | nil =>
      simp only [preScanLoop] at h
      injection h with h3
      rw [← h3]
  | cons m rest ih =>
      unfold preScanLoop at h
      split_ifs at h with h1 h2
      · have h4 := ih h
        exact h4

/-- The staging copies write only staging paths. -/
theorem stageLoop_ok_frame {cp : String} {failAt : Option Nat} {l : List InstallUnit}
    {st st2 : AtState} {x : String}
    (h : stageLoop cp failAt l st = .ok st2)
    (hx : ∀ u ∈ l, stagePath cp u ≠ x) : st2.fs x = st.fs x := by
  induction l generalizing st with
  | nil =>
      simp only [stageLoop] at h
      injection h with h3
      rw [← h3]
  | cons m rest ih =>
      unfold stageLoop at h
      split_ifs at h with h1
      have h4 := ih h (fun u hu => hx u (List.mem_cons_of_mem m hu))
      rw [h4]
      exact if_neg (Ne.symm (hx m (List.mem_cons_self m rest)))

/-- The staging copies write only staging paths, also on an error exit. -/
theorem stageLoop_err_frame {cp : String} {failAt : Option Nat} {l : List InstallUnit}
    {st st2 : AtState} {e : AtErr} {x : String}
    (h : stageLoop cp failAt l st = .error (e, st2))
    (hx : ∀ u ∈ l, stagePath cp u ≠ x) : st2.fs x = st.fs x := by
  induction l generalizing st with
  | nil => simp [stageLoop] at h
  | cons m rest ih =>
      unfold stageLoop at h
      split_ifs at h with h1
      · injection h with h3
        rw [← Prod.mk.injEq _ _ _ _ |>.mp h3 |>.2]
      · have h4 := ih h (fun u hu => hx u (List.mem_cons_of_mem m hu))
        rw [h4]
        exact if_neg (Ne.symm (hx m (List.mem_cons_self m rest)))

/-- The catch-block recovery: if, at the moment of the error, every pushed unit's backup holds its pre-install destination content and every unpushed unit's destination is untouched, then rollback followed by the artifact sweep restores every destination and leaves no staging or backup artifact. -/
theorem restore_after_error {cp : String} (g : InstallUnit → Option Nat)
    (units pushed rem : List InstallUnit) (fs : Fsm)
    (hsplit : units = pushed.reverse ++ rem)
    (hself : ∀ u ∈ units, sepSelf cp u)
    (hsepP : pushed.Pairwise (sepPair cp))
    (hsepR : rem.Pairwise (sepPair cp))
    (hcross : ∀ m ∈ pushed, ∀ w ∈ rem, sepPair cp m w)
    (hb : ∀ m ∈ pushed, fs (backupPath cp m) = g m)
    (hc : ∀ w ∈ rem, fs (dstPath cp w) = g w) :
    ∀ w ∈ units,
      cleanupAllFs cp units (rollbackFs cp pushed fs) (dstPath cp w) = g w ∧
      cleanupAllFs cp units (rollbackFs cp pushed fs) (stagePath cp w) = none ∧
      cleanupAllFs cp units (rollbackFs cp pushed fs) (backupPath cp w) = none := by
  have hPunits : units.Pairwise (sepPair cp) := by
    rw [hsplit]
    refine List.pairwise_append.mpr ⟨?_, hsepR, ?_⟩
    · exact (List.pairwise_reverse.mpr (hsepP.imp (fun h => sepPair_symm h)))
    · intro a ha b hb2
      exact hcross a (List.mem_reverse.mp ha) b hb2
  have hsepAll : ∀ v ∈ units, ∀ w ∈ units, v = w ∨ sepPair cp v w := by
    intro v hv w hw
    by_cases hvw : v = w
    · exact Or.inl hvw
    · exact Or.inr (hPunits.forall (fun a b h => sepPair_symm h) hv hw hvw)
  intro w hw
  simp only [cleanupAllFs]
  refine ⟨?_, sweep_mem_stage hw _, sweep_mem_backup hw _⟩
  have hframe_cleanup : ∀ v ∈ units, stagePath cp v ≠ dstPath cp w ∧
      backupPath cp v ≠ dstPath cp w := by
    intro v hv
    rcases hsepAll v hv w hw with rfl | hsep
    · exact ⟨(hself v hv).1.symm, (hself v hv).2.1.symm⟩
    · obtain ⟨a1, a2, a3, a4, a5, a6, a7, a8, a9⟩ := hsep
      exact ⟨a4, a7⟩
  rw [sweep_frame hframe_cleanup]
  by_cases hwp : w ∈ pushed
  · rw [rollback_mem_dst hwp hsepP (hself w hw)]
    exact hb w hwp
  · have hwrem : w ∈ rem := by
      rcases List.mem_append.mp (hsplit ▸ hw) with h | h
      · exact absurd (List.mem_reverse.mp h) hwp
      · exact h
    have hframe_roll : ∀ m ∈ pushed, dstPath cp m ≠ dstPath cp w ∧
        stagePath cp m ≠ dstPath cp w ∧ backupPath cp m ≠ dstPath cp w := by
      intro m hm
      obtain ⟨a1, a2, a3, a4, a5, a6, a7, a8, a9⟩ := hcross m hm w hwrem
      exact ⟨a1, a4, a7⟩
    rw [rollback_frame hframe_roll]
    exact hc w hwrem

/-- The swap-loop invariant: from any intermediate swap state whose pushed units have their pre-install content in backups and whose remaining units are untouched, an injected failure anywhere in the remaining swap leads, after rollback and sweep, to every destination restored and no artifacts. -/
theorem swapLoop_err_restore {cp : String} {failAt : Option Nat} (g : InstallUnit → Option Nat)
    (units : List InstallUnit) (hself : ∀ u ∈ units, sepSelf cp u) :
    ∀ (rem pushed : List InstallUnit) (st : AtState),
      units = pushed.reverse ++ rem →
      pushed.Pairwise (sepPair cp) →
      rem.Pairwise (sepPair cp) →
      (∀ m ∈ pushed, ∀ w ∈ rem, sepPair cp m w) →
      (∀ m ∈ pushed, st.fs (backupPath cp m) = g m) →
      (∀ w ∈ rem, st.fs (dstPath cp w) = g w) →
      (∀ w ∈ rem, st.fs (backupPath cp w) = none) →
      ∀ {e : AtErr} {st2 : AtState} {pushed2 : List InstallUnit},
      swapLoop cp failAt rem st pushed = .error (e, st2, pushed2) →
      ∀ w ∈ units,
        cleanupAllFs cp units (rollbackFs cp pushed2 st2.fs) (dstPath cp w) = g w ∧
        cleanupAllFs cp units (rollbackFs cp pushed2 st2.fs) (stagePath cp w) = none ∧
        cleanupAllFs cp units (rollbackFs cp pushed2 st2.fs) (backupPath cp w) = none := by
  intro rem
  induction rem with
  | nil =>
      intro pushed st _ _ _ _ _ _ _ e st2 pushed2 hrun
      simp [swapLoop] at hrun
  | cons u rest ih =>
      intro pushed st hsplit hsepP hsepR hcross hb hc hd e st2 pushed2 hrun
      have hu : u ∈ units := by
        rw [hsplit]
        exact List.mem_append.mpr (Or.inr (List.mem_cons_self u rest))
      obtain ⟨su1, su2, su3⟩ := hself u hu
      obtain ⟨hRhead, hRtail⟩ := List.pairwise_cons.mp hsepR
      have hsplit1 : units = (u :: pushed).reverse ++ rest := by
        rw [hsplit, List.reverse_cons, List.append_assoc]
        rfl
      have hsepP1 : (u :: pushed).Pairwise (sepPair cp) :=
        List.pairwise_cons.mpr
          ⟨fun m hm => sepPair_symm (hcross m hm u (List.mem_cons_self u rest)), hsepP⟩
      have hcross1 : ∀ m ∈ u :: pushed, ∀ w ∈ rest, sepPair cp m w := by
        intro m hm w hw
        rcases List.mem_cons.mp hm with rfl | hm2
        · exact hRhead w hw
        · exact hcross m hm2 w (List.mem_cons_of_mem u hw)
      unfold swapLoop at hrun
      by_cases h1 : (failAt == some st.cnt) = true
      · rw [if_pos h1] at hrun
        injection hrun with h3
        injection h3 with he h4
        injection h4 with hst hp
        subst hst
        subst hp
        exact restore_after_error g units pushed (u :: rest) st.fs hsplit hself hsepP hsepR
          hcross hb hc
      · rw [if_neg h1] at hrun
        simp only [] at hrun
        set fs1 := (if (st.fs (dstPath cp u)).isSome = true then
            fsMove st.fs (dstPath cp u) (backupPath cp u) else st.fs) with hfs1def
        have hfs1 : ∀ x, dstPath cp u ≠ x → backupPath cp u ≠ x → fs1 x = st.fs x := by
          intro x hx1 hx2
          rw [hfs1def]
          split_ifs with hm
          · simp [fsMove_eval, Ne.symm hx1, Ne.symm hx2]
          · rfl
        have hfs1bu : fs1 (backupPath cp u) = g u := by
          rw [hfs1def]
          split_ifs with hm
          · rw [← hc u (List.mem_cons_self u rest)]
            simp [fsMove_eval]
          · rw [hd u (List.mem_cons_self u rest), ← hc u (List.mem_cons_self u rest)]
            exact (Option.not_isSome_iff_eq_none.mp (by simpa using hm)).symm
        have hb1 : ∀ m ∈ u :: pushed, fs1 (backupPath cp m) = g m := by
          intro m hm
          rcases List.mem_cons.mp hm with rfl | hm2
          · exact hfs1bu
          · obtain ⟨b1, b2, b3, b4, b5, b6, b7, b8, b9⟩ :=
              hcross m hm2 u (List.mem_cons_self u rest)
            rw [hfs1 _ b7.symm b9.symm]
            exact hb m hm2
        have hc1 : ∀ w ∈ rest, fs1 (dstPath cp w) = g w := by
          intro w hw
          obtain ⟨a1, a2, a3, a4, a5, a6, a7, a8, a9⟩ := hRhead w hw
          rw [hfs1 _ a1 a7]
          exact hc w (List.mem_cons_of_mem u hw)
        have hd1 : ∀ w ∈ rest, fs1 (backupPath cp w) = none := by
          intro w hw
          obtain ⟨a1, a2, a3, a4, a5, a6, a7, a8, a9⟩ := hRhead w hw
          rw [hfs1 _ a3 a9]
          exact hd w (List.mem_cons_of_mem u hw)
        by_cases h2 : (failAt == some (st.cnt + 1)) = true
        · rw [if_pos h2] at hrun
          injection hrun with h3
          injection h3 with he h4
          injection h4 with hst hp
          subst hst
          subst hp
          exact restore_after_error g units (u :: pushed) rest fs1 hsplit1 hself hsepP1 hRtail
            hcross1 hb1 hc1
        · rw [if_neg h2] at hrun
          have hmv : ∀ x, dstPath cp u ≠ x → stagePath cp u ≠ x →
              fsMove fs1 (stagePath cp u) (dstPath cp u) x = fs1 x := by
            intro x hx1 hx2
            simp [fsMove_eval, Ne.symm hx1, Ne.symm hx2]
          have hb2 : ∀ m ∈ u :: pushed,
              (fsMove fs1 (stagePath cp u) (dstPath cp u)) (backupPath cp m) = g m := by
            intro m hm
            rcases List.mem_cons.mp hm with rfl | hm2
            · rw [hmv _ su2 su3]
              exact hfs1bu
            · obtain ⟨b1, b2, b3, b4, b5, b6, b7, b8, b9⟩ :=
                hcross m hm2 u (List.mem_cons_self u rest)
              rw [hmv _ b7.symm b8.symm]
              exact hb1 m (List.mem_cons_of_mem u hm2)
          have hc2 : ∀ w ∈ rest,
              (fsMove fs1 (stagePath cp u) (dstPath cp u)) (dstPath cp w) = g w := by
            intro w hw
            obtain ⟨a1, a2, a3, a4, a5, a6, a7, a8, a9⟩ := hRhead w hw
            rw [hmv _ a1 a4]
            exact hc1 w hw
          have hd2 : ∀ w ∈ rest,
              (fsMove fs1 (stagePath cp u) (dstPath cp u)) (backupPath cp w) = none := by
            intro w hw
            obtain ⟨a1, a2, a3, a4, a5, a6, a7, a8, a9⟩ := hRhead w hw
            rw [hmv _ a3 a6]
            exact hd1 w hw
          have h5 := ih (u :: pushed)
            ⟨st.cnt + 1 + 1, fsMove fs1 (stagePath cp u) (dstPath cp u)⟩
            hsplit1 hsepP1 hRtail hcross1 hb2 hc2 hd2 hrun
          exact h5

/-- C3: for every multi-unit install over any prior destination state, if the stage-swap-commit sequence of atomicInstallFolders fails at any step (injected by the failure oracle, or the pre-scan's own missing-source error), then after the rollback the install returns the original error, every target folder under the destination equals its pre-install state (absent for a fresh install), and no staging or backup artifact remains. -/
theorem atomic_install_rollback (cp : String) (units : List InstallUnit) (fs0 : Fsm)
    (failAt : Option Nat) (e : AtErr)
    (hsep : UnitsSep cp units)
    (hrun : (atomicInstallFolders cp units fs0 failAt).1 = .error e) :
    ∀ u ∈ units,
      (atomicInstallFolders cp units fs0 failAt).2 (dstPath cp u) = fs0 (dstPath cp u) ∧
      (atomicInstallFolders cp units fs0 failAt).2 (stagePath cp u) = none ∧
      (atomicInstallFolders cp units fs0 failAt).2 (backupPath cp u) = none := by
  obtain ⟨hself, hP⟩ := hsep
  have hsepAll : ∀ v ∈ units, ∀ w ∈ units, v = w ∨ sepPair cp v w := by
    intro v hv w hw
    by_cases hvw : v = w
    · exact Or.inl hvw
    · exact Or.inr (hP.forall (fun a b h => sepPair_symm h) hv hw hvw)
  have hsb : ∀ u ∈ units, ∀ v ∈ units,
      stagePath cp v ≠ dstPath cp u ∧ backupPath cp v ≠ dstPath cp u := by
    intro u hu v hv
    rcases hsepAll v hv u hu with rfl | hs
    · exact ⟨(hself v hv).1.symm, (hself v hv).2.1.symm⟩
    · obtain ⟨a1, a2, a3, a4, a5, a6, a7, a8, a9⟩ := hs
      exact ⟨a4, a7⟩
  have hsbk : ∀ u ∈ units, ∀ v ∈ units, stagePath cp v ≠ backupPath cp u := by
    intro u hu v hv
    rcases hsepAll v hv u hu with rfl | hs
    · exact (hself v hv).2.2
    · obtain ⟨a1, a2, a3, a4, a5, a6, a7, a8, a9⟩ := hs
      exact a6
  have hfs1dst : ∀ u ∈ units, precleanFs cp units fs0 (dstPath cp u) = fs0 (dstPath cp u) := by
    intro u hu
    simp only [precleanFs]
    exact sweep_frame (fun v hv => hsb u hu v hv) fs0
  have hfs1bk : ∀ u ∈ units, precleanFs cp units fs0 (backupPath cp u) = none := by
    intro u hu
    simp only [precleanFs]
    exact sweep_mem_backup hu fs0
  cases hps : preScanLoop failAt units { cnt := 0, fs := precleanFs cp units fs0 } with
  | error pr =>
      obtain ⟨e1, stE⟩ := pr
      have hres : atomicInstallFolders cp units fs0 failAt =
          (.error e1, cleanupAllFs cp units (rollbackFs cp [] stE.fs)) := by
        unfold atomicInstallFolders
        simp only [hps]
      rw [hres]
      have hfsE : stE.fs = precleanFs cp units fs0 := preScanLoop_err_fs hps
      refine restore_after_error (fun u => fs0 (dstPath cp u)) units [] units stE.fs rfl hself
        List.Pairwise.nil hP (by intro m hm; cases hm) (by intro m hm; cases hm) ?_
      intro w hw
      rw [hfsE]
      exact hfs1dst w hw
  | ok st =>
      have hfsS : st.fs = precleanFs cp units fs0 := preScanLoop_ok_fs hps
      cases hsl : stageLoop cp failAt units st with
      | error pr =>
          obtain ⟨e2, st2⟩ := pr
          have hres : atomicInstallFolders cp units fs0 failAt =
              (.error e2, cleanupAllFs cp units (rollbackFs cp [] st2.fs)) := by
            unfold atomicInstallFolders
            simp only [hps, hsl]
          rw [hres]
          refine restore_after_error (fun u => fs0 (dstPath cp u)) units [] units st2.fs rfl hself
            List.Pairwise.nil hP (by intro m hm; cases hm) (by intro m hm; cases hm) ?_
          intro w hw
          rw [stageLoop_err_frame hsl (fun v hv => (hsb w hw v hv).1), hfsS]
          exact hfs1dst w hw
      | ok st2 =>
          have hdst2 : ∀ u ∈ units, st2.fs (dstPath cp u) = fs0 (dstPath cp u) := by
            intro u hu
            rw [stageLoop_ok_frame hsl (fun v hv => (hsb u hu v hv).1), hfsS]
            exact hfs1dst u hu
          have hbk2 : ∀ u ∈ units, st2.fs (backupPath cp u) = none := by
            intro u hu
            rw [stageLoop_ok_frame hsl (fun v hv => hsbk u hu v hv), hfsS]
            exact hfs1bk u hu
          cases hsw : swapLoop cp failAt units st2 [] with
          | error pr =>
              obtain ⟨e3, st3, pushed3⟩ := pr
              have hres : atomicInstallFolders cp units fs0 failAt =
                  (.error e3, cleanupAllFs cp units (rollbackFs cp pushed3 st3.fs)) := by
                unfold atomicInstallFolders
                simp only [hps, hsl, hsw]
              rw [hres]
              exact swapLoop_err_restore (fun u => fs0 (dstPath cp u)) units hself units [] st2
                rfl List.Pairwise.nil hP (by intro m hm; cases hm) (by intro m hm; cases hm)
                hdst2 hbk2 hsw
          | ok pr =>
              obtain ⟨st3, pushed3⟩ := pr
              have hres : atomicInstallFolders cp units fs0 failAt =
                  (.ok (units.map (dstPath cp)), removeBackupsFs cp units st3.fs) := by
                unfold atomicInstallFolders
                simp only [hps, hsl, hsw]
              rw [hres] at hrun
              simp at hrun

/-- The two-unit scenario's paths are pairwise separated. -/
theorem twoUnit_sep : UnitsSep "c" [unitA, unitB] := by
  constructor
  · intro u hu
    rcases List.mem_cons.mp hu with rfl | hu2
    · exact ⟨by decide, by decide, by decide⟩
    · rcases List.mem_cons.mp hu2 with rfl | hu3
      · exact ⟨by decide, by decide, by decide⟩
      · cases hu3
  · refine List.Pairwise.cons ?_ (List.Pairwise.cons ?_ List.Pairwise.nil)
    · intro b hb
      rcases List.mem_cons.mp hb with rfl | hb2
      · exact ⟨by decide, by decide, by decide, by decide, by decide, by decide, by decide,
          by decide, by decide⟩
      · cases hb2
    · intro b hb
      cases hb

/-- With the failure injected at operation 7 (the commit move of unit B, after unit A fully committed over a pre-existing destination), the run fails. -/
theorem twoUnit_run_fails :
    (atomicInstallFolders "c" [unitA, unitB] twoUnitFs (some 7)).1 = .error .injected := by
  rfl

/-- Witness for C3: the spec's two-unit mid-swap failure scenario, failing after unit A commits and before unit B commits, restores both pre-existing destinations and leaves no artifacts. -/
theorem atomic_install_rollback_witness :
    UnitsSep "c" [unitA, unitB] ∧
      (atomicInstallFolders "c" [unitA, unitB] twoUnitFs (some 7)).1 = .error .injected ∧
      (∀ u ∈ [unitA, unitB],
        (atomicInstallFolders "c" [unitA, unitB] twoUnitFs (some 7)).2 (dstPath "c" u) =
          twoUnitFs (dstPath "c" u) ∧
        (atomicInstallFolders "c" [unitA, unitB] twoUnitFs (some 7)).2 (stagePath "c" u) = none ∧
        (atomicInstallFolders "c" [unitA, unitB] twoUnitFs (some 7)).2 (backupPath "c" u) = none) :=
  ⟨twoUnit_sep, rfl,
    atomic_install_rollback "c" [unitA, unitB] twoUnitFs (some 7) .injected twoUnit_sep rfl⟩

/-! ## Reconciliation idempotence (C8) -/


theorem storeGet_nil (x : String) : storeGet [] x = none := rfl

theorem storeGet_cons (p : String × StoreRec) (tl : Store) (x : String) :
    storeGet (p :: tl) x = if p.1 = x then some p.2 else storeGet tl x := by
  simp only [storeGet, List.find?]
  by_cases h : p.1 = x
  · simp [h]
  · simp [h]

theorem storeGet_isSome_any (s : Store) (id : String) :
    (storeGet s id).isSome = s.any (fun p => decide (p.1 = id)) := by
  induction s with
  | nil => rfl
  | cons p tl ih =>
      rw [storeGet_cons, List.any_cons]
      by_cases h : p.1 = id
      · simp [h]
      · simp [h, ih]

theorem storeGet_append (s t : Store) (x : String) :
    storeGet (s ++ t) x =
      match storeGet s x with
      | some r => some r
      | none => storeGet t x := by
  induction s with
  | nil => simp [storeGet_nil]
  | cons p tl ih =>
      rw [List.cons_append, storeGet_cons, storeGet_cons]
      by_cases h : p.1 = x
      · simp [h]
      · simp [h, ih]

theorem storeGet_replaceMap (s : Store) (id : String) (rec : StoreRec) (x : String) :
    storeGet (s.map (fun p => if p.1 = id then (id, rec) else p)) x =
      if x = id then (storeGet s id).map (fun _ => rec) else storeGet s x := by
  induction s with
  | nil => simp [storeGet_nil]
  | cons p tl ih =>
      rw [List.map_cons, storeGet_cons, storeGet_cons, storeGet_cons]
      by_cases hp : p.1 = id
      · by_cases hx : x = id
        · simp [hp, hx]
        · simp [hp, hx, ih, Ne.symm hx]
      · by_cases hx : x = id
        · subst hx
          by_cases hpx : p.1 = x
          · exact absurd hpx hp
          · simp [hp, hpx, ih]
        · simp [hp, hx, ih]

theorem storeGet_storeSet (s : Store) (id : String) (v : Option StoreRec) (x : String) :
    storeGet (storeSet s id v) x = if x = id then v else storeGet s x := by
  cases v with
  | none =>
      simp only [storeSet]
      induction s with
      | nil => simp [storeGet_nil]
      | cons p tl ih =>
          rw [List.filter_cons]
          by_cases hp : p.1 = id
          · rw [if_neg (by simp [hp]), ih, storeGet_cons]
            by_cases hx : x = id
            · simp [hx]
            · simp [hx, show p.1 ≠ x from fun h => hx (h.symm.trans hp)]
          · rw [if_pos (by simp [hp]), storeGet_cons, storeGet_cons, ih]
            by_cases hpx : p.1 = x
            · simp [hpx, show x ≠ id from fun h => hp (hpx.trans h)]
            · simp [hpx]
  | some rec =>
      simp only [storeSet]
      by_cases hany : (s.any fun p => decide (p.1 = id)) = true
      · rw [if_pos hany, storeGet_replaceMap]
        by_cases hx : x = id
        · have hs : (storeGet s id).isSome = true := by rw [storeGet_isSome_any]; exact hany
          rcases ho : storeGet s id with _ | r
          · rw [ho] at hs; simp at hs
          · simp [hx, ho]
        · simp [hx]
      · rw [if_neg hany, storeGet_append]
        have hs : storeGet s id = none := by
          have := storeGet_isSome_any s id
          rw [eq_false_of_ne_true hany] at this
          exact Option.not_isSome_iff_eq_none.mp (by simp [this])
        by_cases hx : x = id
        · subst hx
          rw [hs]
          simp [storeGet_cons]
        · rcases ho : storeGet s x with _ | r
          · simp [storeGet_cons, Ne.symm hx, storeGet_nil, hx]
          · simp [hx]

end Dfsc
namespace Dfsc

theorem stepAOpt_now (env : ReconcileEnv) (t2 : String) :
    stepAOpt { env with now := t2 } = stepAOpt env := rfl

theorem stepAUpdated_now (env : ReconcileEnv) (t2 : String) :
    stepAUpdated { env with now := t2 } = stepAUpdated env := rfl

theorem foundKeys_now (env : ReconcileEnv) (t2 : String) :
    foundAddonKeys ({ env with now := t2 }).addons = foundAddonKeys env.addons := rfl

theorem stepBOpt_none_now (env : ReconcileEnv) (t2 : String) (bp : String) (dirs : List String)
    (x : String) (h : stepBOpt env bp dirs x = none) :
    stepBOpt { env with now := t2 } bp dirs x = none := by
  unfold stepBOpt at h ⊢
  simp only [] at h ⊢
  split_ifs at h ⊢ with h1 <;> first | rfl | exact h

end Dfsc
namespace Dfsc

theorem stepAUpdated_idem (env : ReconcileEnv) (bp : String) (dirs : List String) (x : String)
    (rec : StoreRec) :
    stepAUpdated env bp dirs x (stepAUpdated env bp dirs x rec) = stepAUpdated env bp dirs x rec := by
  unfold stepAUpdated
  rcases hinf : inferredVersion (metaMap env dirs) (foundFolders env.addons dirs x) with _ | iv
  · rcases haq : env.addons.find? (fun a => a.id == x) with _ | a <;> simp [hinf, haq]
  · by_cases hv : (rec.installedVersion == "unknown") = true
    · by_cases hiv : (iv == "unknown") = true
      · rcases haq : env.addons.find? (fun a => a.id == x) with _ | a <;> simp [hinf, haq, hv, hiv]
      · rcases haq : env.addons.find? (fun a => a.id == x) with _ | a <;> simp [hinf, haq, hv, hiv]
    · rcases haq : env.addons.find? (fun a => a.id == x) with _ | a <;> simp [hinf, haq, hv]

theorem stepAUpdated_stepBNew (env : ReconcileEnv) (bp : String) (dirs : List String)
    (x : String) :
    stepAUpdated env bp dirs x (stepBNew env bp dirs x) = stepBNew env bp dirs x := by
  unfold stepAUpdated stepBNew
  rcases hinf : inferredVersion (metaMap env dirs) (foundFolders env.addons dirs x) with _ | iv
  · rcases haq : env.addons.find? (fun a => a.id == x) with _ | a <;> simp [hinf, haq]
  · by_cases hiv : (iv == "unknown") = true
    · rcases haq : env.addons.find? (fun a => a.id == x) with _ | a <;> simp [hinf, haq, hiv]
    · rcases haq : env.addons.find? (fun a => a.id == x) with _ | a <;> simp [hinf, haq, hiv]

end Dfsc
namespace Dfsc

end Dfsc
namespace Dfsc

theorem storeGet_eq_none_of_not_mem {s : Store} {x : String} (h : x ∉ s.map (·.1)) :
    storeGet s x = none := by
  induction s with
  | nil => rfl
  | cons p tl ih =>
      simp only [List.map_cons, List.mem_cons, not_or] at h
      rw [storeGet_cons, if_neg (fun he => h.1 he.symm), ih h.2]

theorem phaseA_get (env : ReconcileEnv) (bp : String) (dirs : List String)
    (entries : Store) (hnd : (entries.map (·.1)).Nodup) (store : Store) (x : String) :
    storeGet (phaseA env bp dirs entries store) x =
      match storeGet entries x with
      | some rec =>
          (match stepAOpt env bp dirs x rec with
           | none => storeGet store x
           | some v => v)
      | none => storeGet store x := by
  induction entries generalizing store with
  | nil => simp [phaseA, storeGet_nil]
  | cons p tl ih =>
      simp only [List.map_cons, List.nodup_cons] at hnd
      simp only [phaseA, List.foldl_cons] at ih ⊢
      rw [ih hnd.2, storeGet_cons]
      by_cases hx : p.1 = x
      · subst hx
        rw [storeGet_eq_none_of_not_mem hnd.1]
        rcases ha : stepAOpt env bp dirs p.1 p.2 with _ | v
        · simp [ha]
        · simp [ha, storeGet_storeSet]
      · rcases ht : storeGet tl x with _ | rec
        · rcases ha : stepAOpt env bp dirs p.1 p.2 with _ | v
          · simp [ha, hx]
          · simp [ha, hx, storeGet_storeSet, Ne.symm hx]
        · rcases ha : stepAOpt env bp dirs p.1 p.2 with _ | v
          · simp [ha, hx]
          · simp [ha, hx, storeGet_storeSet, Ne.symm hx]

theorem phaseBKeys_get (env : ReconcileEnv) (bp : String) (dirs : List String)
    (snapshot : Store) (keys : List String) (hk : keys.Nodup) (store : Store) (x : String) :
    storeGet (phaseBKeys env bp dirs snapshot keys store) x =
      if x ∈ keys ∧ storeGet snapshot x = none then
        (match stepBOpt env bp dirs x with
         | some r => some r
         | none => storeGet store x)
      else storeGet store x := by
  induction keys generalizing store with
  | nil => simp [phaseBKeys]
  | cons k tl ih =>
      simp only [List.nodup_cons] at hk
      simp only [phaseBKeys, List.foldl_cons] at ih ⊢
      rw [ih hk.2]
      by_cases hx : x = k
      · subst hx
        have hxtl : (x ∈ tl ∧ storeGet snapshot x = none) = False := by
          simp [hk.1]
        rcases hs : storeGet snapshot x with _ | r
        · rcases hb : stepBOpt env bp dirs x with _ | r2
          · simp [hs, hb, hk.1, List.mem_cons]
          · simp [hs, hb, hk.1, List.mem_cons, storeGet_storeSet]
        · simp [hs, hk.1, List.mem_cons]
      · rcases hs : storeGet snapshot k with _ | r
        · rcases hb : stepBOpt env bp dirs k with _ | r2
          · simp [hs, hb, hx, List.mem_cons]
          · simp [hs, hb, hx, List.mem_cons, storeGet_storeSet, Ne.symm hx]
        · simp [hs, hx, List.mem_cons]

end Dfsc
namespace Dfsc

theorem dedupeFold_mem (l : List String) :
    ∀ (acc : List String) (x : String),
      (x ∈ l.foldl (fun acc y => if acc.contains y then acc else acc ++ [y]) acc) ↔
        x ∈ acc ∨ x ∈ l := by
  induction l with
  | nil => intro acc x; simp
  | cons y tl ih =>
      intro acc x
      rw [List.foldl_cons]
      by_cases hy : acc.contains y = true
      · rw [if_pos hy, ih]
        constructor
        · rintro (h | h)
          · exact Or.inl h
          · exact Or.inr (List.mem_cons_of_mem y h)
        · rintro (h | h)
          · exact Or.inl h
          · rcases List.mem_cons.mp h with rfl | h2
            · exact Or.inl (by simpa using hy)
            · exact Or.inr h2
      · rw [if_neg hy, ih]
        constructor
        · rintro (h | h)
          · rcases List.mem_append.mp h with h2 | h2
            · exact Or.inl h2
            · simp at h2
              subst h2
              exact Or.inr (List.mem_cons_self x tl)
          · exact Or.inr (List.mem_cons_of_mem y h)
        · rintro (h | h)
          · exact Or.inl (List.mem_append.mpr (Or.inl h))
          · rcases List.mem_cons.mp h with rfl | h2
            · exact Or.inl (List.mem_append.mpr (Or.inr (by simp)))
            · exact Or.inr h2

theorem dedupeFold_nodup (l : List String) :
    ∀ (acc : List String), acc.Nodup →
      (l.foldl (fun acc y => if acc.contains y then acc else acc ++ [y]) acc).Nodup := by
  induction l with
  | nil => intro acc h; simpa using h
  | cons y tl ih =>
      intro acc h
      rw [List.foldl_cons]
      by_cases hy : acc.contains y = true
      · rw [if_pos hy]
        exact ih acc h
      · rw [if_neg hy]
        refine ih _ ?_
        rw [List.nodup_append]
        refine ⟨h, List.nodup_singleton y, ?_⟩
        intro a ha hb
        simp at hb
        subst hb
        exact hy (by simpa using ha)

theorem foundAddonKeys_nodup (addons : List MAddon) (dirs : List String) :
    (foundAddonKeys addons dirs).Nodup :=
  dedupeFold_nodup _ [] List.nodup_nil

theorem foundAddonKeys_mem (addons : List MAddon) (dirs : List String) (x : String) :
    x ∈ foundAddonKeys addons dirs ↔ ∃ d ∈ dirs, folderAddonId addons d = some x := by
  rw [foundAddonKeys, dedupeFold_mem]
  simp [List.mem_filterMap]

theorem mem_keys_iff_found (addons : List MAddon) (dirs : List String) (x : String) :
    x ∈ foundAddonKeys addons dirs ↔ (foundFolders addons dirs x).isEmpty = false := by
  rw [foundAddonKeys_mem]
  constructor
  · rintro ⟨d, hd, he⟩
    have hmem : d ∈ foundFolders addons dirs x := by
      rw [foundFolders, List.mem_filter]
      exact ⟨hd, by simp [he]⟩
    rcases hf : foundFolders addons dirs x with _ | ⟨a, b⟩
    · rw [hf] at hmem
      cases hmem
    · rfl
  · intro h
    rcases hf : foundFolders addons dirs x with _ | ⟨a, b⟩
    · rw [hf] at h
      simp at h
    · have hmem : a ∈ foundFolders addons dirs x := by
        rw [hf]
        exact List.mem_cons_self a b
      rw [foundFolders, List.mem_filter] at hmem
      refine ⟨a, hmem.1, ?_⟩
      have := hmem.2
      simpa using this

theorem stepAOpt_delete_not_mem (env : ReconcileEnv) (bp : String) (dirs : List String)
    (x : String) (rec : StoreRec)
    (h : stepAOpt env bp dirs x rec = some none) :
    x ∉ foundAddonKeys env.addons dirs := by
  intro hmem
  rw [mem_keys_iff_found] at hmem
  unfold stepAOpt at h
  simp only [] at h
  by_cases h1 : (foundFolders env.addons dirs x).isEmpty = true
  · simp [h1] at hmem
  · rw [if_neg h1] at h
    split_ifs at h with h2 <;> simp at h

end Dfsc
namespace Dfsc

theorem keys_replaceMap (s : Store) (id : String) (rec : StoreRec) :
    (s.map (fun p => if p.1 = id then (id, rec) else p)).map (·.1) = s.map (·.1) := by
  induction s with
  | nil => rfl
  | cons p tl ih =>
      simp only [List.map_cons, ih]
      by_cases hp : p.1 = id <;> simp [hp]

theorem storeKeysNodup_storeSet {s : Store} (hnd : storeKeysNodup s) (id : String)
    (v : Option StoreRec) : storeKeysNodup (storeSet s id v) := by
  cases v with
  | none =>
      simp only [storeKeysNodup, storeSet] at hnd ⊢
      exact List.Nodup.sublist (List.Sublist.map _ (List.filter_sublist s)) hnd
  | some rec =>
      simp only [storeKeysNodup, storeSet] at hnd ⊢
      by_cases hany : (s.any fun p => decide (p.1 = id)) = true
      · rw [if_pos hany, keys_replaceMap]
        exact hnd
      · rw [if_neg hany, List.map_append, List.nodup_append]
        refine ⟨hnd, by simp, ?_⟩
        intro a ha hb
        simp at hb
        subst hb
        rcases List.mem_map.mp ha with ⟨p, hp, he⟩
        exact hany (List.any_eq_true.mpr ⟨p, hp, by simp [he]⟩)

theorem foldl_storeSet_nodup {α : Type} (l : List α) (f : Store → α → Store)
    (hf : ∀ st a, storeKeysNodup st → storeKeysNodup (f st a)) :
    ∀ st, storeKeysNodup st → storeKeysNodup (l.foldl f st) := by
  induction l with
  | nil => intro st h; exact h
  | cons a tl ih =>
      intro st h
      rw [List.foldl_cons]
      exact ih _ (hf st a h)

theorem reconcile_nodup (env : ReconcileEnv) (s : Store) (hnd : storeKeysNodup s) :
    storeKeysNodup (reconcile env s) := by
  unfold reconcile
  rcases env.basePath with _ | bp
  · refine foldl_storeSet_nodup s _ ?_ s hnd
    intro st a h
    split_ifs
    · exact storeKeysNodup_storeSet h _ _
    · exact h
  · split_ifs
    · exact hnd
    · exact hnd
    · rcases env.communityDirs with _ | dirs
      · exact hnd
      · refine foldl_storeSet_nodup _ _ ?_ _ ?_
        · intro st a h
          split_ifs
          · exact h
          · rcases stepBOpt env bp dirs a with _ | r
            · exact h
            · exact storeKeysNodup_storeSet h _ _
        · refine foldl_storeSet_nodup s _ ?_ s hnd
          intro st a h
          rcases stepAOpt env bp dirs a.1 a.2 with _ | v
          · exact h
          · exact storeKeysNodup_storeSet h _ _

end Dfsc
namespace Dfsc

theorem stepAOpt_of_conditions (env : ReconcileEnv) (bp : String) (dirs : List String)
    (x : String) (rec : StoreRec)
    (h1 : (foundFolders env.addons dirs x).isEmpty = false)
    (h2 : (((foundFolders env.addons dirs x).map (joinPath2 bp)).filter env.pathExistsF).isEmpty
      = false) :
    stepAOpt env bp dirs x rec = some (some (stepAUpdated env bp dirs x rec)) := by
  unfold stepAOpt
  simp [h1, h2]

theorem stepAOpt_update_inv (env : ReconcileEnv) (bp : String) (dirs : List String)
    (x : String) (rec : StoreRec) (r : StoreRec)
    (h : stepAOpt env bp dirs x rec = some (some r)) :
    r = stepAUpdated env bp dirs x rec ∧
      (foundFolders env.addons dirs x).isEmpty = false ∧
      (((foundFolders env.addons dirs x).map (joinPath2 bp)).filter env.pathExistsF).isEmpty
        = false := by
  unfold stepAOpt at h
  simp only [] at h
  by_cases h1 : (foundFolders env.addons dirs x).isEmpty = true
  · rw [if_pos h1] at h
    split_ifs at h <;> simp at h
  · rw [if_neg h1] at h
    by_cases h2 : (((foundFolders env.addons dirs x).map (joinPath2 bp)).filter
        env.pathExistsF).isEmpty = true
    · rw [if_pos h2] at h
      simp at h
    · rw [if_neg h2] at h
      injection h with h3
      injection h3 with h4
      exact ⟨h4.symm, Bool.eq_false_iff.mpr h1, Bool.eq_false_iff.mpr h2⟩

theorem stepBOpt_some_inv (env : ReconcileEnv) (bp : String) (dirs : List String)
    (x : String) (r : StoreRec)
    (h : stepBOpt env bp dirs x = some r) :
    r = stepBNew env bp dirs x ∧
      (((foundFolders env.addons dirs x).map (joinPath2 bp)).filter env.pathExistsF).isEmpty
        = false := by
  unfold stepBOpt at h
  simp only [] at h
  by_cases h2 : (((foundFolders env.addons dirs x).map (joinPath2 bp)).filter
      env.pathExistsF).isEmpty = true
  · rw [if_pos h2] at h
    simp at h
  · rw [if_neg h2] at h
    injection h with h3
    exact ⟨h3.symm, Bool.eq_false_iff.mpr h2⟩

theorem valid_ne_empty_found (env : ReconcileEnv) (bp : String) (dirs : List String)
    (x : String)
    (h : (((foundFolders env.addons dirs x).map (joinPath2 bp)).filter env.pathExistsF).isEmpty
      = false) :
    (foundFolders env.addons dirs x).isEmpty = false := by
  rcases hf : foundFolders env.addons dirs x with _ | ⟨a, b⟩
  · rw [hf] at h
    simp at h
  · rfl

theorem recStep_idem (env : ReconcileEnv) (t2 : String) (bp : String) (dirs : List String)
    (x : String) (cur : Option StoreRec) :
    recStep { env with now := t2 } bp dirs x (recStep env bp dirs x cur) =
      recStep env bp dirs x cur := by
  have hA : stepAOpt { env with now := t2 } = stepAOpt env := rfl
  have hAu : stepAUpdated { env with now := t2 } = stepAUpdated env := rfl
  have hK : foundAddonKeys ({ env with now := t2 } : ReconcileEnv).addons =
      foundAddonKeys env.addons := rfl
  have hbval : phaseBVal env bp dirs x = none → phaseBVal { env with now := t2 } bp dirs x
      = none := by
    intro h
    unfold phaseBVal at h ⊢
    rw [hK]
    by_cases hk : x ∈ foundAddonKeys env.addons dirs
    · rw [if_pos hk] at h ⊢
      rcases hb : stepBOpt env bp dirs x with _ | r
      · rw [stepBOpt_none_now env t2 bp dirs x hb]
      · rw [hb] at h
        simp at h
    · rw [if_neg hk]
  rcases cur with _ | rec
  · -- run 1 went through the creation loop only
    simp only [recStep]
    by_cases hk : x ∈ foundAddonKeys env.addons dirs
    · rcases hb : stepBOpt env bp dirs x with _ | r
      · have h0 : phaseBVal env bp dirs x = none := by
          unfold phaseBVal
          simp [hk, hb]
        rw [h0]
        simp only [recStep]
        exact hbval h0
      · have h0 : phaseBVal env bp dirs x = some r := by
          unfold phaseBVal
          simp [hk, hb]
        rw [h0]
        simp only [recStep]
        obtain ⟨hr, hval⟩ := stepBOpt_some_inv env bp dirs x r hb
        have hfound := valid_ne_empty_found env bp dirs x hval
        have hup : stepAOpt env bp dirs x r = some (some r) := by
          rw [stepAOpt_of_conditions env bp dirs x r hfound hval]
          subst hr
          rw [stepAUpdated_stepBNew]
        rw [hA, hup]
    · have h0 : phaseBVal env bp dirs x = none := by
        unfold phaseBVal
        simp [hk]
      rw [h0]
      simp only [recStep]
      exact hbval h0
  · -- run 1 saw an existing record
    simp only [recStep]
    rcases ha : stepAOpt env bp dirs x rec with _ | v
    · simp only [recStep, hA, ha]
    · rcases v with _ | r
      · -- deleted; the creation loop cannot re-add it
        have hnm := stepAOpt_delete_not_mem env bp dirs x rec ha
        have h0 : phaseBVal env bp dirs x = none := by
          unfold phaseBVal
          simp [hnm]
        rw [h0]
        simp only [recStep]
        exact hbval h0
      · -- updated in place; the update is stable
        obtain ⟨hr, hfound, hval⟩ := stepAOpt_update_inv env bp dirs x rec r ha
        have hup : stepAOpt env bp dirs x r = some (some r) := by
          rw [hr, stepAOpt_of_conditions env bp dirs x _ hfound hval, stepAUpdated_idem]
        simp only [recStep, hA, hup]

end Dfsc
namespace Dfsc

theorem prune_get (pef : String → Bool) (entries : Store) :
    ∀ (store : Store), (entries.map (·.1)).Nodup → ∀ (x : String),
    storeGet (entries.foldl (fun st p =>
        if p.2.installedPaths.any (fun q => !pef q) then storeSet st p.1 none else st) store) x =
      match storeGet entries x with
      | some rec => if rec.installedPaths.any (fun q => !pef q) then none else storeGet store x
      | none => storeGet store x := by
  induction entries with
  | nil => intro store hnd x; simp [storeGet_nil]
  | cons p tl ih =>
      intro store hnd x
      simp only [List.map_cons, List.nodup_cons] at hnd
      simp only [List.foldl_cons]
      rw [ih _ hnd.2, storeGet_cons]
      by_cases hx : p.1 = x
      · subst hx
        rw [storeGet_eq_none_of_not_mem hnd.1]
        by_cases hbad : p.2.installedPaths.any (fun q => !pef q) = true
        · simp [hbad, storeGet_storeSet]
        · simp [hbad]
      · rcases ht : storeGet tl x with _ | rec
        · by_cases hbad : p.2.installedPaths.any (fun q => !pef q) = true
          · simp [hbad, hx, storeGet_storeSet, Ne.symm hx]
          · simp [hbad, hx]
        · by_cases hbad : p.2.installedPaths.any (fun q => !pef q) = true
          · simp [hbad, hx, storeGet_storeSet, Ne.symm hx]
          · simp [hbad, hx]

theorem reconcile_get (env : ReconcileEnv) (bp : String) (dirs : List String)
    (hbp : env.basePath = some bp) (hman : env.manifestOk = true)
    (hne : env.addons.isEmpty = false) (hdirs : env.communityDirs = some dirs)
    (s : Store) (hnd : storeKeysNodup s) (x : String) :
    storeGet (reconcile env s) x = recStep env bp dirs x (storeGet s x) := by
  unfold reconcile
  rw [hbp]
  simp only [hman, hne, hdirs, Bool.not_true, if_false, Bool.false_eq_true]
  unfold phaseB
  rw [phaseBKeys_get env bp dirs _ _ (foundAddonKeys_nodup env.addons dirs) _ x]
  have hA := phaseA_get env bp dirs s hnd s x
  rcases hg : storeGet s x with _ | rec
  · rw [hg] at hA
    simp only [hg] at hA
    simp only [recStep, phaseBVal]
    by_cases hk : x ∈ foundAddonKeys env.addons dirs
    · rcases hb : stepBOpt env bp dirs x with _ | r <;> simp [hk, hb, hA]
    · simp [hk, hA]
  · rw [hg] at hA
    rcases ha : stepAOpt env bp dirs x rec with _ | v
    · simp only [ha] at hA
      simp only [recStep, ha]
      simp [hA, hg]
    · rcases v with _ | r
      · simp only [ha] at hA
        simp only [recStep, ha, phaseBVal]
        by_cases hk : x ∈ foundAddonKeys env.addons dirs
        · rcases hb : stepBOpt env bp dirs x with _ | r2 <;> simp [hk, hb, hA]
        · simp [hk, hA]
      · simp only [ha] at hA
        simp only [recStep, ha]
        simp [hA]

/-- C8: running reconciliation twice in a row over the same manifest,
directory listing and on-disk state (only the recorded wall-clock time
differs between the runs) leaves every persisted installed record
identical: the installed map is keyed by addon id, and at every key the
second run stores exactly what the first run stored. -/
theorem reconcile_idempotent (env : ReconcileEnv) (t2 : String) (s : Store)
    (hnd : storeKeysNodup s) (x : String) :
    storeGet (reconcile { env with now := t2 } (reconcile env s)) x =
      storeGet (reconcile env s) x := by
  have hnd2 : storeKeysNodup (reconcile env s) := reconcile_nodup env s hnd
  by_cases hbpn : env.basePath = none
  · -- no base path: the prune branch runs both times
    have e1 : reconcile env s = s.foldl (fun st p =>
        if p.2.installedPaths.any (fun q => !env.pathExistsF q) then storeSet st p.1 none
        else st) s := by
      unfold reconcile
      simp only [hbpn]
    have e2 : reconcile { env with now := t2 } (reconcile env s) =
        (reconcile env s).foldl (fun st p =>
          if p.2.installedPaths.any (fun q => !env.pathExistsF q) then storeSet st p.1 none
          else st) (reconcile env s) := by
      unfold reconcile
      simp only [hbpn]
    rw [e2, prune_get env.pathExistsF _ _ hnd2 x]
    rcases hg : storeGet (reconcile env s) x with _ | rec2
    · rfl
    · have hgood : rec2.installedPaths.any (fun q => !env.pathExistsF q) = false := by
        rw [e1, prune_get env.pathExistsF s s hnd x] at hg
        rcases hg0 : storeGet s x with _ | rec
        · rw [hg0] at hg
          simp at hg
        · rw [hg0] at hg
          simp only [] at hg
          by_cases hbad : rec.installedPaths.any (fun q => !env.pathExistsF q) = true
          · rw [if_pos hbad] at hg
            cases hg
          · rw [if_neg hbad] at hg
            injection hg with h4
            subst h4
            exact Bool.eq_false_iff.mpr hbad
      simp [hgood]
  · obtain ⟨bp, hbp⟩ := Option.ne_none_iff_exists'.mp hbpn
    by_cases hman : env.manifestOk = true
    · by_cases hne : env.addons.isEmpty = true
      · have h2 : reconcile { env with now := t2 } (reconcile env s) = reconcile env s := by
          unfold reconcile
          simp [hbp, hman, hne]
        rw [h2]
      · have hneF : env.addons.isEmpty = false := Bool.eq_false_iff.mpr hne
        by_cases hdn : env.communityDirs = none
        · have h2 : reconcile { env with now := t2 } (reconcile env s) = reconcile env s := by
            unfold reconcile
            simp [hbp, hman, hneF, hdn]
          rw [h2]
        · obtain ⟨dirs, hdirs⟩ := Option.ne_none_iff_exists'.mp hdn
          rw [reconcile_get { env with now := t2 } bp dirs hbp hman hneF hdirs
            (reconcile env s) hnd2 x]
          rw [reconcile_get env bp dirs hbp hman hneF hdirs s hnd x]
          exact recStep_idem env t2 bp dirs x (storeGet s x)
    · have hmanF : env.manifestOk = false := Bool.eq_false_iff.mpr hman
      have h2 : reconcile { env with now := t2 } (reconcile env s) = reconcile env s := by
        unfold reconcile
        simp [hbp, hmanF]
      rw [h2]

/-- The idempotence theorem applied at a concrete environment: one catalog
addon claiming the observed folder, all paths present, empty initial
store. -/
theorem reconcile_idempotent_witness :
    storeKeysNodup ([] : Store) ∧
    storeGet (reconcile { wRecEnv with now := "t2" } (reconcile wRecEnv [])) "addona" =
      storeGet (reconcile wRecEnv []) "addona" :=
  ⟨List.nodup_nil, reconcile_idempotent wRecEnv "t2" [] List.nodup_nil "addona"⟩

end Dfsc
